import Mathlib

/-!
Verification of the state-space search engine in
`src/2021/23/src/python/main/amphipod.py` (AoC 2021 day 23, part 1).

The board is a fixed graph of 15 locations: indices 0..10 are `Regular`
(transit/hallway) locations and indices 11..14 are `Home` (destination)
locations, where `Home` at index `i` has designated amphipod type `i - 10`.
A system state is a flat array of 15 small integers (`data`), plus a set of
"active" locations carried alongside.  The engine is an A*-style best-first
search over these states.

All definitions below are direct translations of the Python source:
location methods become value-level functions dispatching on the index
(faithful to the one fixed board built in `main`), the mutable `data` list
becomes an explicit `List Nat`, the `queue.PriorityQueue` becomes a list
kept sorted by the tuple key `(estimate, energy, data)` (pop = head,
push = ordered insert; ties are resolved deterministically, which is the
only freedom the Python heap also has), and the `dict` of visited states
becomes an association list whose most recent binding shadows older ones
(the code only ever reads it through `get`, so this matches overwriting).
-/

namespace Amphipod

/-- Neighbor links of each of the 15 locations, as produced by the
`Location.connect` calls in `main` (each call appends to both endpoints'
link lists). -/
def linkTable : List (List (Nat × Nat)) :=
  [[(1, 1)],
   [(0, 1), (3, 2), (11, 2)],
   [],
   [(1, 2), (11, 2), (5, 2), (12, 2)],
   [],
   [(3, 2), (12, 2), (7, 2), (13, 2)],
   [],
   [(5, 2), (13, 2), (9, 2), (14, 2)],
   [],
   [(7, 2), (14, 2), (10, 1)],
   [(9, 1)],
   [(1, 2), (3, 2)],
   [(3, 2), (5, 2)],
   [(5, 2), (7, 2)],
   [(7, 2), (9, 2)]]

/-- Weighted neighbor links of location `s`. -/
def links (s : Nat) : List (Nat × Nat) :=
  linkTable.getD s []

/-- Value-level `is_active`: `Regular.is_active` for `i < 11`,
`Home.is_active` (with designated type `i - 10`) for `i ≥ 11`. -/
def is_activev (i v : Nat) : Bool :=
  if i < 11 then decide (0 < v)
  else decide (0 < v ∧ v ≠ (i - 10) ∧ v ≠ 5 * (i - 10) + (i - 10))

/-- Value-level `get`: the amphipod type that can move out of the location. -/
def getv (i v : Nat) : Nat :=
  if i < 11 then v
  else if 0 < v / 5 then v / 5 else v % 5

/-- Value-level `accepts`: whether amphipod type `a` can move in. -/
def acceptsv (i v a : Nat) : Bool :=
  if i < 11 then decide (v = 0)
  else if 0 < v / 5 then false else decide (i - 10 = a)

/-- Value-level `put`: the new slot value and the number of additional
steps, for moving type `a` in (`a ≠ 0`) or out (`a = 0`). -/
def putv (i v a : Nat) : Nat × Nat :=
  if i < 11 then (a, 0)
  else if a = 0 then
    if v / 5 = 0 then (0, 1) else (v % 5, 0)
  else
    if v % 5 = 0 then (a, 1) else (a * 5 + v % 5, 0)

/-- `Location.is_active` on a state array. -/
def is_active (i : Nat) (d : List Nat) : Bool :=
  is_activev i (d.getD i 0)

/-- `Location.get` on a state array. -/
def get (i : Nat) (d : List Nat) : Nat :=
  getv i (d.getD i 0)

/-- `Location.accepts` on a state array. -/
def accepts (i : Nat) (d : List Nat) (a : Nat) : Bool :=
  acceptsv i (d.getD i 0) a

/-- `Location.put` on a state array: the updated array and the extra steps. -/
def put (i : Nat) (d : List Nat) (a : Nat) : List Nat × Nat :=
  (d.set i (putv i (d.getD i 0) a).1, (putv i (d.getD i 0) a).2)

/-- `Location.candidate_moves`: the linked locations currently willing to
accept this location's occupant, with their traversal weights. -/
def candidate_moves (i : Nat) (d : List Nat) : List (Nat × Nat) :=
  let a := get i d
  if a = 0 then [] else (links i).filter (fun p => accepts p.1 d a)

/-- The `DISTANCES` table: per-location, per-type lower bounds on the
energy needed to bring an amphipod home, exactly as written in the source. -/
def DISTANCES : List (List Nat) :=
  [[0, 3, 50, 700, 9000],
   [0, 2, 40, 600, 8000],
   [0, 1, 30, 500, 7000],
   [0, 2, 20, 400, 6000],
   [0, 3, 10, 300, 5000],
   [0, 4, 20, 200, 4000],
   [0, 5, 30, 100, 3000],
   [0, 6, 40, 200, 2000],
   [0, 7, 50, 300, 1000],
   [0, 8, 60, 400, 2000],
   [0, 9, 70, 500, 3000],
   [0, 0, 40, 600, 8000],
   [0, 4, 0, 400, 6000],
   [0, 6, 40, 0, 4000],
   [0, 8, 60, 400, 0],
   [0, 0, 50, 700, 9000],
   [0, 5, 0, 500, 7000],
   [0, 7, 50, 0, 5000],
   [0, 9, 70, 500, 0]]

/-- Table lookup `DISTANCES[i][a]` (out-of-range reads default to 0;
in-range use is established separately). -/
def DIST (i a : Nat) : Nat :=
  (DISTANCES.getD i []).getD a 0

/-- The heuristic `get_estimation`: summed per-slot lower bounds. -/
def get_estimation (d : List Nat) : Nat :=
  let r1 := (List.range 11).foldl (fun r i => r + DIST i (d.getD i 0)) 0
  (List.range 4).foldl
    (fun r i => r + DIST (i + 11) (d.getD (i + 11) 0 / 5)
                  + DIST (i + 15) (d.getD (i + 11) 0 % 5)) r1

/-- One frontier entry `(estimated_total_cost, accumulated_cost, state)`;
the state is its `data` array together with its recorded active set. -/
structure Entry where
  est : Nat
  en : Nat
  data : List Nat
  act : List Nat
deriving DecidableEq, Repr

/-- Python list comparison (`<`) on integer lists, used to break priority
ties deterministically via `State.__lt__`. -/
def listLtB : List Nat → List Nat → Bool
  | [], [] => false
  | [], _ :: _ => true
  | _ :: _, [] => false
  | x :: xs, y :: ys =>
    if x < y then true else if y < x then false else listLtB xs ys

/-- Strict comparison of frontier entries by `(est, en, data)`, the tuple
order used by the priority queue. -/
def keyLtB (e f : Entry) : Bool :=
  if e.est < f.est then true
  else if f.est < e.est then false
  else if e.en < f.en then true
  else if f.en < e.en then false
  else listLtB e.data f.data

/-- Ordered insertion into the frontier (kept sorted; pop = head). -/
def pushQ (ch : Entry) : List Entry → List Entry
  | [] => [ch]
  | x :: xs => if keyLtB ch x then ch :: x :: xs else x :: pushQ ch xs

/-- Visited-table lookup (`states.get(tuple(array))`). -/
def lookupA (d : List Nat) : List (List Nat × Nat) → Option Nat
  | [] => none
  | (k, v) :: rest => if d = k then some v else lookupA d rest

/-- The whole loop state: frontier, visited table, best known result. -/
structure Config where
  queue : List Entry
  states : List (List Nat × Nat)
  result : Nat
deriving DecidableEq, Repr

/-- Successor state for moving the occupant of `s` to `t` over a link of
weight `w`: clone, move out, move in, account energy, update active set. -/
def mkChild (e : Entry) (s t w : Nat) : Entry :=
  let a := get s e.data
  let p1 := put s e.data 0
  let p2 := put t p1.1 a
  let en2 := e.en + 10 ^ (a - 1) * (w + p1.2 + p2.2)
  let act1 := if is_active s p2.1 then e.act else e.act.erase s
  let act2 :=
    if is_active t p2.1 then (if t ∈ act1 then act1 else act1 ++ [t]) else act1
  ⟨get_estimation p2.1 + en2, en2, p2.1, act2⟩

/-- All successors pushed when an entry is expanded. -/
def mkChildren (e : Entry) : List Entry :=
  e.act.flatMap fun s =>
    (candidate_moves s e.data).map fun p => mkChild e s p.1 p.2

/-- The expansion part of one loop iteration: record the visited cost,
possibly improve the best known result, push all successors. -/
def expandStep (e : Entry) (rest : List Entry)
    (st : List (List Nat × Nat)) (result : Nat) : Config :=
  let st2 := (e.data, e.en) :: st
  let r2 := if e.act.isEmpty && decide (e.en < result) then e.en else result
  ⟨(mkChildren e).foldl (fun q c => pushQ c q) rest, st2, r2⟩

/-- One iteration of the search loop (identity on an empty frontier):
pop the least entry, apply the best-known-result check, the visited-table
check, and otherwise expand. -/
def stepC (c : Config) : Config :=
  match c.queue with
  | [] => c
  | e :: rest =>
    if c.result ≤ e.est then ⟨rest, c.states, c.result⟩
    else
      match lookupA e.data c.states with
      | some p =>
        if p ≤ e.en then ⟨rest, c.states, c.result⟩
        else expandStep e rest c.states c.result
      | none => expandStep e rest c.states c.result

/-- The search loop, fuel-indexed: returns the final `result` once the
frontier empties, `none` if the fuel runs out first. -/
def loopF : Nat → Config → Option Nat
  | _, ⟨[], _, r⟩ => some r
  | 0, _ => none
  | f + 1, c => loopF f (stepC c)

/-- The initial sentinel `2 ** 63` standing for "infinity". -/
def SENT : Nat := 2 ^ 63

/-- The set of active locations recomputed directly from an array,
`[p for p in locations if p.is_active(data)]`. -/
def activeOf (d : List Nat) : List Nat :=
  (List.range 15).filter fun i => is_active i d

/-- The initial frontier entry seeded by `main`. -/
def initEntry (d : List Nat) : Entry :=
  ⟨get_estimation d, 0, d, activeOf d⟩

/-- The initial loop state. -/
def initConfig (d : List Nat) : Config :=
  ⟨[initEntry d], [], SENT⟩

/-- An upper bound on the number of loop iterations any run can take
(established below); used as the fuel of the reference run. -/
def FUEL : Nat := 1 + 28 * (5 ^ 11 * 25 ^ 4)

/-- The value printed by `main` for a given initial array:  the search
result after the loop has drained the frontier. -/
def searchOut (d : List Nat) : Option Nat :=
  loopF FUEL (initConfig d)

/-! ### Well-formedness of state arrays -/

/-- A well-formed state array: 15 slots, hallway slots hold a type in
`0..4`, destination slots hold a two-level code `5*x + y` with
`x, y ∈ 0..4`, i.e. a value in `0..24`. -/
def Valid (d : List Nat) : Prop :=
  d.length = 15 ∧ (∀ i < 11, d.getD i 0 ≤ 4) ∧
    (∀ i < 15, 11 ≤ i → d.getD i 0 ≤ 24)

instance : DecidablePred Valid := fun d => by
  unfold Valid; infer_instance

/-! ### Claim C2: the `accepts` predicate -/

/-- Follows the claim wording of C2 for a Destination location (using the
spec's `5*far + near` slot encoding, so `far := v / 5`, `near := v % 5`):
the unit type matches the designated type, the far slot is unoccupied, and
any unit already present matches the destination's type. -/
def claimedAcceptsDest (i v a : Nat) : Prop :=
  i - 10 = a ∧ v / 5 = 0 ∧ (v % 5 = 0 ∨ v % 5 = i - 10)

/-- State with a lone type-2 amphipod parked at the bottom of the type-1
destination (index 11). -/
def dC2 : List Nat := [0, 0, 0, 0, 0, 0, 0, 0, 0, 0, 0, 2, 0, 0, 0]

/-! ### Claim C8: the `put` extra-step count -/

/-- Follows the claim wording of C8 for a Destination location (same
`far := v / 5`, `near := v % 5` encoding): one extra intra-location step
exactly when the move involves the near slot (for a move out: the removed
occupant sits in the near slot, i.e. the far slot is empty; for a move in:
the unit lands in the near slot, i.e. the near slot is empty) while the
far slot already holds something; zero extra steps otherwise. -/
def claimedExtraDest (v a : Nat) : Nat :=
  if a = 0 then (if v / 5 = 0 ∧ ¬ v / 5 = 0 then 1 else 0)
  else (if v % 5 = 0 ∧ ¬ v / 5 = 0 then 1 else 0)

/-- The all-empty board. -/
def dEmpty : List Nat := [0, 0, 0, 0, 0, 0, 0, 0, 0, 0, 0, 0, 0, 0, 0]

/-- C2: the `accepts` rule the code actually implements.  A Transit
location accepts exactly when it is empty; a Destination location accepts
exactly when the type matches and the `v / 5` half of its slot is free —
the occupant already present in the `v % 5` half is not examined. -/
theorem C2_amended (i : Nat) (d : List Nat) (a : Nat) :
    (i < 11 → (accepts i d a = true ↔ d.getD i 0 = 0)) ∧
    (11 ≤ i → (accepts i d a = true ↔ i - 10 = a ∧ d.getD i 0 / 5 = 0)) := by
  constructor
  · intro h
    simp [accepts, acceptsv, h]
  · intro h
    have h' : ¬ i < 11 := by omega
    by_cases h5 : 0 < d.getD i 0 / 5
    · simp [accepts, acceptsv, h', h5]
      omega
    · simp [accepts, acceptsv, h', h5]
      omega

/-- C2 witness: the amended rule evaluated on the concrete board `dC2`
(type-1 destination, type-2 occupant in its lower half). -/
theorem C2_amended_witness :
    11 ≤ 11 ∧ (accepts 11 dC2 1 = true ↔ 11 - 10 = 1 ∧ dC2.getD 11 0 / 5 = 0) :=
  ⟨by decide, (C2_amended 11 dC2 1).2 (by decide)⟩

/-- C2 counterexample: the destination for type 1 accepts a type-1 unit
even though a mismatched type-2 unit is already present, contradicting the
claim's "stack already consistent" conjunct. -/
theorem C2_counterexample :
    accepts 11 dC2 1 = true ∧ ¬ claimedAcceptsDest 11 (dC2.getD 11 0) 1 := by
  constructor
  · decide
  · intro h
    rcases h with ⟨_, _, h3⟩
    revert h3
    decide

/-- C8: the extra-step count the code actually returns.  It is always 0
or 1; a Transit `put` always returns 0; a Destination `put` charges the
extra step exactly when the operation involves the `v % 5` half of the
slot with the `v / 5` half empty: moving out when `v / 5 = 0` (the
occupant is taken from the `v % 5` half) and moving in when `v % 5 = 0`
(the unit lands in the `v % 5` half). -/
theorem C8_amended (i : Nat) (d : List Nat) (a : Nat) :
    (put i d a).2 ≤ 1 ∧
    (i < 11 → (put i d a).2 = 0) ∧
    (11 ≤ i → a = 0 → ((put i d a).2 = 1 ↔ d.getD i 0 / 5 = 0)) ∧
    (11 ≤ i → a ≠ 0 → ((put i d a).2 = 1 ↔ d.getD i 0 % 5 = 0)) := by
  have h : (put i d a).2 = (putv i (d.getD i 0) a).2 := rfl
  rw [h]
  unfold putv
  split_ifs with h1 h2 h3 h3 <;> simp_all <;> omega

/-- C8 witness: the amended characterization at the concrete instance of
inserting the first unit into an empty destination. -/
theorem C8_amended_witness :
    (11 ≤ 11 ∧ (1 : Nat) ≠ 0) ∧
      ((put 11 dEmpty 1).2 = 1 ↔ dEmpty.getD 11 0 % 5 = 0) :=
  ⟨⟨by decide, by decide⟩, (C8_amended 11 dEmpty 1).2.2.2 (by decide) (by decide)⟩

/-- C8 counterexample: inserting the first unit into an empty destination
costs one extra step in the code, while the claim's condition (near slot
involved *and* far slot already occupied) predicts zero. -/
theorem C8_counterexample :
    (put 11 dEmpty 1).2 = 1 ∧ claimedExtraDest (dEmpty.getD 11 0) 1 = 0 := by
  constructor <;> decide

/-! ### The transition system generated by the engine -/

/-- The array after moving the occupant of `s` to `t`: the source's `put`
with 0 (move out) followed by the target's `put` with the moved type. -/
def moveData (s t : Nat) (d : List Nat) : List Nat :=
  (put t (put s d 0).1 (get s d)).1

/-- The energy charged for that move over a link of weight `w`:
`10 ** (a - 1) * (weight + source extra steps + target extra steps)`. -/
def moveCost (s t w : Nat) (d : List Nat) : Nat :=
  10 ^ (get s d - 1) * (w + (put s d 0).2 + (put t (put s d 0).1 (get s d)).2)

/-- A single legal move as the engine generates them: an active source
location, one of its links, whose target currently accepts the occupant. -/
def StepR (d : List Nat) (c : Nat) (d2 : List Nat) : Prop :=
  ∃ s t w, is_active s d = true ∧ (t, w) ∈ links s ∧
    accepts t d (get s d) = true ∧ d2 = moveData s t d ∧ c = moveCost s t w d

/-- Transitive closure of legal moves with accumulated cost: the legal
move sequences of the specification. -/
inductive Reach : List Nat → Nat → List Nat → Prop
  | refl (d : List Nat) : Reach d 0 d
  | step {d c1 d1 c2 d2} : StepR d c1 d1 → Reach d1 c2 d2 → Reach d (c1 + c2) d2

/-- A goal state: no location holds a unit that still wants to move. -/
def isGoal (d : List Nat) : Bool :=
  (List.range 15).all fun i => ! is_active i d

/-! ### Basic facts about the board tables -/

theorem links_mem {s t w : Nat} (h : (t, w) ∈ links s) :
    s < 15 ∧ t < 15 ∧ t ≠ s ∧ 1 ≤ w ∧ w ≤ 2 := by
  by_cases hs : s < 15
  · interval_cases s <;> simp [links, linkTable, Prod.mk.injEq] at h <;> omega
  · exfalso
    have : links s = [] := by
      unfold links
      apply List.getD_eq_default
      simp [linkTable]
      omega
    rw [this] at h
    exact List.not_mem_nil _ h

theorem getv_le {i v : Nat} (hv : v ≤ 24) (hv2 : i < 11 → v ≤ 4) :
    getv i v ≤ 4 := by
  unfold getv
  split_ifs with h1 h2 <;> omega

/-! ### Well-formedness is preserved by moves (groundwork for C9) -/

theorem valid_getD_le {d : List Nat} (hd : Valid d) {i : Nat} :
    d.getD i 0 ≤ 24 ∧ (i < 11 → d.getD i 0 ≤ 4) := by
  obtain ⟨hlen, h1, h2⟩ := hd
  by_cases hi : i < 15
  · by_cases hi1 : i < 11
    · exact ⟨le_trans (h1 i hi1) (by omega), fun _ => h1 i hi1⟩
    · exact ⟨h2 i hi (by omega), fun h => absurd h hi1⟩
  · have : d.getD i 0 = 0 := by
      apply List.getD_eq_default
      omega
    omega

theorem getD_set_eq {d : List Nat} (hlen : d.length = 15) {i : Nat}
    (hi : i < 15) (v : Nat) : (d.set i v).getD i 0 = v := by
  rw [List.getD_eq_getElem?_getD, List.getElem?_set_self (by omega)]
  rfl

theorem getD_set_ne {d : List Nat} {i j : Nat} (hne : j ≠ i) (v : Nat) :
    (d.set i v).getD j 0 = d.getD j 0 := by
  rw [List.getD_eq_getElem?_getD, List.getElem?_set_ne (by omega),
    ← List.getD_eq_getElem?_getD]

theorem putv_fst_le {i v a : Nat} (hv : v ≤ 24) (ha : a ≤ 4) :
    (putv i v a).1 ≤ 24 ∧ (i < 11 → (putv i v a).1 ≤ 4) := by
  unfold putv
  split_ifs with h1 h2 h3 h3 <;> constructor <;> intros <;> simp <;> omega

theorem moveData_length {s t : Nat} {d : List Nat} :
    (moveData s t d).length = d.length := by
  unfold moveData put
  simp

theorem moveData_getD_other {s t i : Nat} {d : List Nat}
    (hs : i ≠ s) (ht : i ≠ t) :
    (moveData s t d).getD i 0 = d.getD i 0 := by
  unfold moveData put
  dsimp only
  rw [getD_set_ne ht, getD_set_ne hs]

theorem moveData_getD_src {s t : Nat} {d : List Nat} (hlen : d.length = 15)
    (hs : s < 15) (hst : t ≠ s) :
    (moveData s t d).getD s 0 = (putv s (d.getD s 0) 0).1 := by
  unfold moveData put
  dsimp only
  rw [getD_set_ne (Ne.symm hst), getD_set_eq hlen hs]

theorem moveData_getD_tgt {s t : Nat} {d : List Nat} (hlen : d.length = 15)
    (hs : s < 15) (ht : t < 15) (hst : t ≠ s) :
    (moveData s t d).getD t 0 =
      (putv t (d.getD t 0) (get s d)).1 := by
  unfold moveData put
  dsimp only
  rw [getD_set_eq (by simp [hlen]) ht, getD_set_ne hst]

theorem stepR_valid {d : List Nat} {c : Nat} {d2 : List Nat}
    (h : StepR d c d2) (hd : Valid d) : Valid d2 := by
  obtain ⟨s, t, w, hact, hlink, hacc, hd2, -⟩ := h
  obtain ⟨hs15, ht15, hts, -, -⟩ := links_mem hlink
  obtain ⟨hlen, h1, h2⟩ := hd
  have ha : get s d ≤ 4 :=
    getv_le (valid_getD_le ⟨hlen, h1, h2⟩).1 fun h => (valid_getD_le ⟨hlen, h1, h2⟩).2 h
  subst hd2
  refine ⟨by rw [moveData_length, hlen], ?_, ?_⟩
  · intro i hi
    by_cases his : i = s
    · subst his
      rw [moveData_getD_src hlen hs15 hts]
      exact (putv_fst_le (valid_getD_le ⟨hlen, h1, h2⟩).1 (by omega)).2 hi
    · by_cases hit : i = t
      · subst hit
        rw [moveData_getD_tgt hlen hs15 ht15 hts]
        exact (putv_fst_le (valid_getD_le ⟨hlen, h1, h2⟩).1 ha).2 hi
      · rw [moveData_getD_other his hit]
        exact h1 i hi
  · intro i hi hi2
    by_cases his : i = s
    · subst his
      rw [moveData_getD_src hlen hs15 hts]
      exact (putv_fst_le (valid_getD_le ⟨hlen, h1, h2⟩).1 (by omega)).1
    · by_cases hit : i = t
      · subst hit
        rw [moveData_getD_tgt hlen hs15 ht15 hts]
        exact (putv_fst_le (valid_getD_le ⟨hlen, h1, h2⟩).1 ha).1
      · rw [moveData_getD_other his hit]
        exact h2 i hi hi2

theorem reach_valid {d : List Nat} {c : Nat} {g : List Nat}
    (h : Reach d c g) (hd : Valid d) : Valid g := by
  induction h with
  | refl => exact hd
  | step h1 _ ih => exact ih (stepR_valid h1 hd)

/-! ### The heuristic as a sum of independent per-slot contributions -/

/-- The contribution of slot `i` holding value `v` to `get_estimation`. -/
def contrib (i v : Nat) : Nat :=
  if i < 11 then DIST i v else DIST i (v / 5) + DIST (i + 4) (v % 5)

/-- The number of units of type `b` sitting in slot `i` of value `v`. -/
def countv (i v b : Nat) : Nat :=
  if i < 11 then (if v = b then 1 else 0)
  else (if v / 5 = b then 1 else 0) + (if v % 5 = b then 1 else 0)

/-- The number of units of type `b` on the whole board. -/
def countF (b : Nat) (d : List Nat) : Nat :=
  ∑ i ∈ Finset.range 15, countv i (d.getD i 0) b

theorem range11_eq : List.range 11 = [0, 1, 2, 3, 4, 5, 6, 7, 8, 9, 10] := by
  decide

theorem range4_eq : List.range 4 = [0, 1, 2, 3] := by decide

theorem get_estimation_eq (d : List Nat) :
    get_estimation d = ∑ i ∈ Finset.range 15, contrib i (d.getD i 0) := by
  simp [get_estimation, range11_eq, range4_eq, Finset.sum_range_succ, contrib]
  ring

/-- Replacing one slot changes a per-slot sum only at that slot. -/
theorem sumF_set (F : Nat → Nat → Nat) {d : List Nat} (hlen : d.length = 15)
    {j : Nat} (hj : j < 15) (v : Nat) :
    (∑ i ∈ Finset.range 15, F i ((d.set j v).getD i 0)) + F j (d.getD j 0)
      = (∑ i ∈ Finset.range 15, F i (d.getD i 0)) + F j v := by
  have hmem : j ∈ Finset.range 15 := Finset.mem_range.mpr hj
  have e1 : ∑ i ∈ Finset.range 15, F i ((d.set j v).getD i 0)
      = F j v + ∑ i ∈ (Finset.range 15).erase j, F i (d.getD i 0) := by
    rw [← Finset.add_sum_erase _ _ hmem, getD_set_eq hlen hj]
    congr 1
    apply Finset.sum_congr rfl
    intro i hi
    rw [getD_set_ne (Finset.ne_of_mem_erase hi)]
  have e2 : ∑ i ∈ Finset.range 15, F i (d.getD i 0)
      = F j (d.getD j 0) + ∑ i ∈ (Finset.range 15).erase j, F i (d.getD i 0) :=
    (Finset.add_sum_erase _ _ hmem).symm
  rw [e1, e2]
  ring

/-- Replacing two distinct slots changes a per-slot sum only at those. -/
theorem sumF_set2 (F : Nat → Nat → Nat) {d : List Nat} (hlen : d.length = 15)
    {s t : Nat} (hs : s < 15) (ht : t < 15) (hts : t ≠ s) (v1 v2 : Nat) :
    (∑ i ∈ Finset.range 15, F i (((d.set s v1).set t v2).getD i 0))
        + F s (d.getD s 0) + F t (d.getD t 0)
      = (∑ i ∈ Finset.range 15, F i (d.getD i 0)) + F s v1 + F t v2 := by
  have h1 := sumF_set F hlen hs v1 (d := d)
  have h2 := sumF_set F (by simp [hlen]) ht v2 (d := d.set s v1)
  rw [getD_set_ne hts] at h2
  omega

/-! ### The finite per-move check: heuristic consistency and unit-count
conservation over every link, every type, every pair of slot contents -/

/-- One move instance is checked for (a) local consistency of the
heuristic contributions against the charged cost and (b) conservation of
the number of units of each type. -/
def stepOKv (s t w a vs vt : Nat) : Bool :=
  let o := putv s vs 0
  let n := putv t vt a
  let cost := 10 ^ (a - 1) * (w + o.2 + n.2)
  decide (contrib s vs + contrib t vt ≤ cost + contrib s o.1 + contrib t n.1)
    && ((List.range 4).all fun b =>
      countv s vs (b + 1) + countv t vt (b + 1)
        == countv s o.1 (b + 1) + countv t n.1 (b + 1))

/-- The check over the whole board: every link, every type, every source
slot content carrying that type, every accepting target slot content. -/
def consistencyOK : Bool :=
  (List.range 15).all fun s =>
    (links s).all fun p =>
      (List.range 4).all fun q =>
        (((List.range 25).filter fun v => getv s v == q + 1).all fun vs =>
          (List.range 25).all fun vt =>
            !(acceptsv p.1 vt (q + 1)) || stepOKv s p.1 p.2 (q + 1) vs vt)

set_option maxRecDepth 4000 in
theorem consistency_holds : consistencyOK = true := by decide

theorem consistency_elim {s t w a vs vt : Nat} (hs : s < 15)
    (hl : (t, w) ∈ links s) (ha1 : 1 ≤ a) (ha4 : a ≤ 4)
    (hget : getv s vs = a) (hvs : vs ≤ 24)
    (hacc : acceptsv t vt a = true) (hvt : vt ≤ 24) :
    stepOKv s t w a vs vt = true := by
  have h := consistency_holds
  unfold consistencyOK at h
  rw [List.all_eq_true] at h
  have h1 := h s (by simp [List.mem_range]; omega)
  rw [List.all_eq_true] at h1
  have h2 := h1 (t, w) hl
  rw [List.all_eq_true] at h2
  have h3 := h2 (a - 1) (by simp [List.mem_range]; omega)
  have ha : a - 1 + 1 = a := by omega
  rw [ha] at h3
  rw [List.all_eq_true] at h3
  have h4 := h3 vs (by
    rw [List.mem_filter]
    exact ⟨by simp [List.mem_range]; omega, by simp [hget]⟩)
  rw [List.all_eq_true] at h4
  have h5 := h4 vt (by simp [List.mem_range]; omega)
  rw [hacc] at h5
  simpa using h5

theorem active_getv_pos {i v : Nat} (h : is_activev i v = true) :
    1 ≤ getv i v := by
  unfold is_activev at h
  unfold getv
  split_ifs at h ⊢ <;> simp at h <;> omega

/-- Value-level bridge: a legal move rewrites the two touched slots. -/
theorem moveData_eq {s t : Nat} {d : List Nat} (hts : t ≠ s) :
    moveData s t d
      = (d.set s (putv s (d.getD s 0) 0).1).set t
          (putv t (d.getD t 0) (get s d)).1 := by
  unfold moveData put
  dsimp only
  rw [getD_set_ne hts]

theorem moveCost_eq {s t w : Nat} {d : List Nat} (hts : t ≠ s) :
    moveCost s t w d
      = 10 ^ (get s d - 1)
          * (w + (putv s (d.getD s 0) 0).2
              + (putv t (d.getD t 0) (get s d)).2) := by
  unfold moveCost put
  dsimp only
  rw [getD_set_ne hts]

/-- Heuristic consistency along any legal move from a valid state. -/
theorem stepR_esti {d d2 : List Nat} {c : Nat} (h : StepR d c d2)
    (hd : Valid d) : get_estimation d ≤ c + get_estimation d2 := by
  obtain ⟨s, t, w, hact, hlink, hacc, hd2, hc⟩ := h
  obtain ⟨hs15, ht15, hts, hw1, hw2⟩ := links_mem hlink
  have hvs : d.getD s 0 ≤ 24 := (valid_getD_le hd).1
  have hvt : d.getD t 0 ≤ 24 := (valid_getD_le hd).1
  have ha4 : get s d ≤ 4 :=
    getv_le (valid_getD_le hd).1 fun h => (valid_getD_le hd).2 h
  have ha1 : 1 ≤ get s d := active_getv_pos hact
  have hok := consistency_elim hs15 hlink ha1 ha4 rfl hvs hacc hvt
  unfold stepOKv at hok
  rw [Bool.and_eq_true] at hok
  have hineq := of_decide_eq_true hok.1
  subst hd2 hc
  rw [moveData_eq hts, moveCost_eq hts, get_estimation_eq, get_estimation_eq]
  have hloc := sumF_set2 contrib hd.1 hs15 ht15 hts
    (putv s (d.getD s 0) 0).1 (putv t (d.getD t 0) (get s d)).1
  omega

/-- Unit counts of each type are conserved by any legal move. -/
theorem stepR_count {d d2 : List Nat} {c : Nat} (h : StepR d c d2)
    (hd : Valid d) {b : Nat} (hb1 : 1 ≤ b) (hb4 : b ≤ 4) :
    countF b d2 = countF b d := by
  obtain ⟨s, t, w, hact, hlink, hacc, hd2, hc⟩ := h
  obtain ⟨hs15, ht15, hts, hw1, hw2⟩ := links_mem hlink
  have hvs : d.getD s 0 ≤ 24 := (valid_getD_le hd).1
  have hvt : d.getD t 0 ≤ 24 := (valid_getD_le hd).1
  have ha4 : get s d ≤ 4 :=
    getv_le (valid_getD_le hd).1 fun h => (valid_getD_le hd).2 h
  have ha1 : 1 ≤ get s d := active_getv_pos hact
  have hok := consistency_elim hs15 hlink ha1 ha4 rfl hvs hacc hvt
  unfold stepOKv at hok
  rw [Bool.and_eq_true, List.all_eq_true] at hok
  have hb := hok.2 (b - 1) (by simp [List.mem_range]; omega)
  have hbb : b - 1 + 1 = b := by omega
  rw [hbb] at hb
  rw [Nat.beq_eq_true_eq] at hb
  subst hd2
  unfold countF
  rw [moveData_eq hts]
  have hloc := sumF_set2 (fun i v => countv i v b) hd.1 hs15 ht15 hts
    (putv s (d.getD s 0) 0).1 (putv t (d.getD t 0) (get s d)).1
  omega

/-! ### The heuristic vanishes on goal states and is admissible -/

set_option maxRecDepth 2000 in
theorem contrib_zero_of_inactive :
    ∀ i < 15, ∀ v < 25, is_activev i v = false → contrib i v = 0 := by
  decide

theorem isGoal_inactive {d : List Nat} (hg : isGoal d = true) {i : Nat}
    (hi : i < 15) : is_active i d = false := by
  unfold isGoal at hg
  rw [List.all_eq_true] at hg
  have := hg i (by simp [List.mem_range]; omega)
  simpa using this

theorem esti_goal {d : List Nat} (hd : Valid d) (hg : isGoal d = true) :
    get_estimation d = 0 := by
  rw [get_estimation_eq]
  apply Finset.sum_eq_zero
  intro i hi
  rw [Finset.mem_range] at hi
  exact contrib_zero_of_inactive i hi _
    (by have := (valid_getD_le hd (i := i)).1; omega)
    (isGoal_inactive hg hi)

/-- Admissibility: the heuristic never exceeds the cost of any legal move
sequence from a valid state to a goal state. -/
theorem reach_goal_esti {d g : List Nat} {c : Nat} (h : Reach d c g)
    (hd : Valid d) (hg : isGoal g = true) : get_estimation d ≤ c := by
  induction h with
  | refl d => exact le_of_eq (esti_goal hd hg)
  | step h1 h2 ih =>
    have hstep := stepR_esti h1 hd
    have h2v := ih (stepR_valid h1 hd) hg
    omega

/-! ### Frontier helper lemmas -/

theorem keyLtB_est_le {a b : Entry} (h : keyLtB a b = true) :
    a.est ≤ b.est := by
  unfold keyLtB at h
  split_ifs at h <;> omega

theorem keyLtB_est_ge {a b : Entry} (h : keyLtB a b = false) :
    b.est ≤ a.est := by
  unfold keyLtB at h
  split_ifs at h <;> omega

theorem mem_pushQ {x ch : Entry} {q : List Entry} :
    x ∈ pushQ ch q ↔ x = ch ∨ x ∈ q := by
  induction q with
  | nil => simp [pushQ]
  | cons y ys ih =>
    rw [pushQ]
    split_ifs with hlt
    · simp [List.mem_cons]
    · simp only [List.mem_cons, ih]
      tauto

theorem pushQ_pairwise {ch : Entry} {q : List Entry}
    (h : q.Pairwise fun a b => a.est ≤ b.est) :
    (pushQ ch q).Pairwise fun a b => a.est ≤ b.est := by
  induction q with
  | nil => simp [pushQ]
  | cons y ys ih =>
    rw [List.pairwise_cons] at h
    rw [pushQ]
    split_ifs with hlt
    · refine List.pairwise_cons.mpr ⟨?_, List.pairwise_cons.mpr h⟩
      intro z hz
      rcases List.mem_cons.mp hz with hz | hz
      · exact hz ▸ keyLtB_est_le hlt
      · exact le_trans (keyLtB_est_le hlt) (h.1 z hz)
    · refine List.pairwise_cons.mpr ⟨?_, ih h.2⟩
      intro z hz
      rcases mem_pushQ.mp hz with hz | hz
      · exact hz ▸ keyLtB_est_ge (by simpa using hlt)
      · exact h.1 z hz

theorem mem_foldl_pushQ {x : Entry} {l : List Entry} {q : List Entry} :
    x ∈ l.foldl (fun acc c => pushQ c acc) q ↔ x ∈ q ∨ x ∈ l := by
  induction l generalizing q with
  | nil => simp
  | cons c cs ih =>
    rw [List.foldl_cons, ih, mem_pushQ]
    simp only [List.mem_cons]
    tauto

theorem pairwise_foldl_pushQ {l : List Entry} {q : List Entry}
    (h : q.Pairwise fun a b => a.est ≤ b.est) :
    (l.foldl (fun acc c => pushQ c acc) q).Pairwise
      fun a b => a.est ≤ b.est := by
  induction l generalizing q with
  | nil => exact h
  | cons c cs ih => exact ih (pushQ_pairwise h)

/-! ### Visited-table helper lemmas -/

theorem lookupA_cons {d k : List Nat} {v : Nat}
    {l : List (List Nat × Nat)} :
    lookupA d ((k, v) :: l) = if d = k then some v else lookupA d l := rfl

theorem lookupA_none_iff {d : List Nat} {l : List (List Nat × Nat)} :
    lookupA d l = none ↔ d ∉ l.map Prod.fst := by
  induction l with
  | nil => simp [lookupA]
  | cons kv l ih =>
    obtain ⟨k, v⟩ := kv
    rw [lookupA_cons]
    by_cases h : d = k
    · simp [h]
    · simp [h, ih]

/-! ### Reachability helper lemmas -/

theorem reach_snoc {d0 d d2 : List Nat} {c1 c2 : Nat}
    (h : Reach d0 c1 d) (h2 : StepR d c2 d2) : Reach d0 (c1 + c2) d2 := by
  induction h with
  | refl d =>
    have := Reach.step h2 (Reach.refl d2)
    simpa using this
  | step ha hb ih =>
    have := Reach.step ha (ih h2)
    rw [← Nat.add_assoc] at this
    exact this

theorem reach_trans {d0 d d2 : List Nat} {c1 c2 : Nat}
    (h : Reach d0 c1 d) (h2 : Reach d c2 d2) : Reach d0 (c1 + c2) d2 := by
  induction h2 generalizing d0 c1 with
  | refl d => simpa using h
  | step ha hb ih =>
    have := ih (reach_snoc h ha)
    rw [Nat.add_assoc] at this
    exact this

/-! ### Successor construction lemmas -/

/-- The incremental active-set update performed on each transition. -/
def actUpd (s t : Nat) (d2 : List Nat) (act : List Nat) : List Nat :=
  let act1 := if is_active s d2 then act else act.erase s
  if is_active t d2 then (if t ∈ act1 then act1 else act1 ++ [t]) else act1

theorem mkChild_def (e : Entry) (s t w : Nat) :
    mkChild e s t w =
      ⟨get_estimation (moveData s t e.data) + (e.en + moveCost s t w e.data),
        e.en + moveCost s t w e.data, moveData s t e.data,
        actUpd s t (moveData s t e.data) e.act⟩ := rfl

theorem candidate_moves_mem {s : Nat} {d : List Nat} {t w : Nat}
    (h : (t, w) ∈ candidate_moves s d) :
    get s d ≠ 0 ∧ (t, w) ∈ links s ∧ accepts t d (get s d) = true := by
  unfold candidate_moves at h
  by_cases h0 : get s d = 0
  · simp [h0] at h
  · simp only [h0, if_false, List.mem_filter] at h
    exact ⟨h0, h.1, h.2⟩

theorem candidate_moves_mem_of {s : Nat} {d : List Nat} {t w : Nat}
    (h0 : get s d ≠ 0) (hl : (t, w) ∈ links s)
    (ha : accepts t d (get s d) = true) :
    (t, w) ∈ candidate_moves s d := by
  unfold candidate_moves
  simp only [h0, if_false, List.mem_filter]
  exact ⟨hl, ha⟩

theorem mkChildren_mem {e : Entry} {ch : Entry} :
    ch ∈ mkChildren e ↔
      ∃ s ∈ e.act, ∃ p ∈ candidate_moves s e.data,
        ch = mkChild e s p.1 p.2 := by
  unfold mkChildren
  rw [List.mem_flatMap]
  constructor
  · rintro ⟨s, hs, hm⟩
    rw [List.mem_map] at hm
    obtain ⟨p, hp, he⟩ := hm
    exact ⟨s, hs, p, hp, he.symm⟩
  · rintro ⟨s, hs, p, hp, he⟩
    exact ⟨s, hs, List.mem_map.mpr ⟨p, hp, he.symm⟩⟩

/-- A successor of a state is one legal move away from it. -/
theorem mkChild_stepR {e : Entry} {s t w : Nat}
    (hact : is_active s e.data = true) (hl : (t, w) ∈ links s)
    (hacc : accepts t e.data (get s e.data) = true) :
    StepR e.data (moveCost s t w e.data) (moveData s t e.data) :=
  ⟨s, t, w, hact, hl, hacc, rfl, rfl⟩

/-- Finite fact: a destination that is active and accepts a unit remains
active after receiving it (so the incremental `add` of the target is
exactly membership-correct). -/
theorem activeTgt :
    ∀ t < 15, ∀ vt < 25, ∀ a < 5, acceptsv t vt a = true →
      is_activev t vt = true → is_activev t (putv t vt a).1 = true := by
  decide

/-- The incremental active-set update is exactly the recomputed active
set of the successor array (the C4 preservation core). -/
theorem actUpd_ok {d : List Nat} {act : List Nat} {s t w : Nat}
    (hd : Valid d) (hnd : act.Nodup)
    (hiff : ∀ i, i ∈ act ↔ (i < 15 ∧ is_active i d = true))
    (hs : s ∈ act) (hl : (t, w) ∈ links s)
    (hacc : accepts t d (get s d) = true) :
    (actUpd s t (moveData s t d) act).Nodup ∧
      ∀ i, i ∈ actUpd s t (moveData s t d) act ↔
        (i < 15 ∧ is_active i (moveData s t d) = true) := by
  obtain ⟨hs15, ht15, hts, hw1, hw2⟩ := links_mem hl
  set d2 := moveData s t d with hd2
  have hother : ∀ i, i ≠ s → i ≠ t → is_active i d2 = is_active i d := by
    intro i his hit
    unfold is_active
    rw [hd2, moveData_getD_other his hit]
  have htgt : is_active t d = true → is_active t d2 = true := by
    intro h
    unfold is_active
    rw [hd2, moveData_getD_tgt hd.1 hs15 ht15 hts]
    have hvt : d.getD t 0 ≤ 24 := (valid_getD_le hd).1
    have ha4 : get s d ≤ 4 :=
      getv_le (valid_getD_le hd).1 fun hlt => (valid_getD_le hd).2 hlt
    exact activeTgt t ht15 (d.getD t 0) (by omega) (get s d) (by omega)
      hacc h
  have hact1nd : (if is_active s d2 then act else act.erase s).Nodup := by
    split_ifs
    · exact hnd
    · exact hnd.erase s
  have hact1mem : ∀ i, i ∈ (if is_active s d2 then act else act.erase s) ↔
      (i < 15 ∧ is_active i d = true ∧ (i = s → is_active s d2 = true)) := by
    intro i
    split_ifs with hsa
    · rw [hiff i]
      constructor
      · rintro ⟨h1, h2⟩
        exact ⟨h1, h2, fun _ => hsa⟩
      · rintro ⟨h1, h2, _⟩
        exact ⟨h1, h2⟩
    · rw [hnd.mem_erase_iff, hiff i]
      constructor
      · rintro ⟨h1, h2, h3⟩
        exact ⟨h2, h3, fun hh => absurd hh h1⟩
      · rintro ⟨h1, h2, h3⟩
        refine ⟨?_, h1, h2⟩
        intro hh
        exact hsa (h3 hh)
  have hmem1 : ∀ i,
      (i ∈ if is_active s d2 = true then act else act.erase s) →
        (i < 15 ∧ is_active i d = true) := by
    intro i hi
    have := (hact1mem i).mp hi
    exact ⟨this.1, this.2.1⟩
  have hsame : ∀ i, i ≠ t →
      ((i ∈ if is_active s d2 = true then act else act.erase s) ↔
        (i < 15 ∧ is_active i d2 = true)) := by
    intro i hit
    rw [hact1mem i]
    by_cases his : i = s
    · subst his
      constructor
      · rintro ⟨ha, hb, hc⟩
        exact ⟨ha, hc rfl⟩
      · rintro ⟨ha, hb⟩
        exact ⟨ha, (hiff i).mp hs |>.2, fun _ => hb⟩
    · rw [hother i his hit]
      tauto
  unfold actUpd
  dsimp only
  by_cases hta : is_active t d2 = true
  · rw [if_pos hta]
    by_cases htm : t ∈ (if is_active s d2 = true then act else act.erase s)
    · rw [if_pos htm]
      refine ⟨hact1nd, ?_⟩
      intro i
      by_cases hit : i = t
      · subst hit
        constructor
        · intro _
          exact ⟨ht15, hta⟩
        · intro _
          exact htm
      · exact hsame i hit
    · rw [if_neg htm]
      constructor
      · rw [List.nodup_append]
        refine ⟨hact1nd, List.nodup_singleton t, ?_⟩
        intro x hx hx2
        rw [List.mem_singleton] at hx2
        exact htm (hx2 ▸ hx)
      · intro i
        rw [List.mem_append, List.mem_singleton]
        by_cases hit : i = t
        · subst hit
          simp only [or_true, true_iff]
          exact ⟨ht15, hta⟩
        · simp only [hit, or_false]
          exact hsame i hit
  · rw [if_neg hta]
    refine ⟨hact1nd, ?_⟩
    intro i
    by_cases hit : i = t
    · subst hit
      constructor
      · intro hi
        exact absurd (htgt ((hmem1 i hi).2)) hta
      · rintro ⟨ha, hb⟩
        exact absurd hb hta
    · exact hsame i hit

/-! ### The master loop invariant -/

/-- Well-formedness of a frontier entry relative to the initial array
`d0`: a valid data array, the estimate in its defining form, the
accumulated energy realized by a legal move sequence, and the recorded
active set equal to the recomputed one (the C4 invariant). -/
def EntryOK (d0 : List Nat) (e : Entry) : Prop :=
  Valid e.data ∧ e.est = get_estimation e.data + e.en ∧
    Reach d0 e.en e.data ∧ e.act.Nodup ∧
    ∀ i, i ∈ e.act ↔ (i < 15 ∧ is_active i e.data = true)

/-- The loop-state invariant: the frontier is sorted by estimate and all
its entries are well-formed; every visited-table binding is a realized
cost whose estimate lower-bounds the whole frontier (so no rewrite can
ever occur) and upper-bounds the result on goal arrays; the best known
result is either the untouched sentinel or a realized goal cost; and the
table's keys are distinct valid arrays. -/
def Inv (d0 : List Nat) (c : Config) : Prop :=
  c.queue.Pairwise (fun a b => a.est ≤ b.est) ∧
  (∀ e ∈ c.queue, EntryOK d0 e) ∧
  (∀ d v, lookupA d c.states = some v →
    Valid d ∧ Reach d0 v d ∧ (isGoal d = true → c.result ≤ v) ∧
    ∀ e ∈ c.queue, get_estimation d + v ≤ e.est) ∧
  (c.result = SENT ∨ ∃ g, Reach d0 c.result g ∧ isGoal g = true) ∧
  (c.states.map Prod.fst).Nodup ∧
  (∀ kv ∈ c.states, Valid kv.1)

theorem act_nil_iff_goal {e : Entry}
    (hiff : ∀ i, i ∈ e.act ↔ (i < 15 ∧ is_active i e.data = true)) :
    e.act = [] ↔ isGoal e.data = true := by
  constructor
  · intro h
    unfold isGoal
    rw [List.all_eq_true]
    intro i hi
    rw [List.mem_range] at hi
    by_cases hb : is_active i e.data = true
    · exact absurd ((hiff i).mpr ⟨hi, hb⟩) (by simp [h])
    · simpa using hb
  · intro h
    rw [List.eq_nil_iff_forall_not_mem]
    intro i hi
    obtain ⟨hi15, hia⟩ := (hiff i).mp hi
    rw [isGoal_inactive h hi15] at hia
    exact Bool.false_ne_true hia

/-- Every successor entry is well-formed and its estimate does not drop
below its parent's (heuristic consistency at the frontier level). -/
theorem mkChildren_ok {d0 : List Nat} {e : Entry} (he : EntryOK d0 e)
    {ch : Entry} (hch : ch ∈ mkChildren e) :
    EntryOK d0 ch ∧ e.est ≤ ch.est := by
  obtain ⟨hval, hest, hreach, hnd, hiff⟩ := he
  obtain ⟨s, hsact, p, hp, hceq⟩ := mkChildren_mem.mp hch
  obtain ⟨h0, hl, hacc⟩ := candidate_moves_mem hp
  have hact : is_active s e.data = true := ((hiff s).mp hsact).2
  have hstep : StepR e.data (moveCost s p.1 p.2 e.data)
      (moveData s p.1 e.data) := mkChild_stepR hact hl hacc
  have hupd := actUpd_ok hval hnd hiff hsact hl hacc
  have hconsist := stepR_esti hstep hval
  subst hceq
  rw [mkChild_def]
  refine ⟨⟨stepR_valid hstep hval, rfl, reach_snoc hreach hstep,
    hupd.1, hupd.2⟩, ?_⟩
  dsimp only
  omega

/-! ### Reduction lemmas for one loop iteration -/

theorem stepC_nil {c : Config} (h : c.queue = []) : stepC c = c := by
  simp only [stepC, h]

theorem stepC_discard1 {c : Config} {e : Entry} {rest : List Entry}
    (hq : c.queue = e :: rest) (hle : c.result ≤ e.est) :
    stepC c = ⟨rest, c.states, c.result⟩ := by
  simp only [stepC, hq]
  rw [if_pos hle]

theorem stepC_discard2 {c : Config} {e : Entry} {rest : List Entry}
    {p : Nat} (hq : c.queue = e :: rest) (hgt : ¬ c.result ≤ e.est)
    (hl : lookupA e.data c.states = some p) (hple : p ≤ e.en) :
    stepC c = ⟨rest, c.states, c.result⟩ := by
  simp only [stepC, hq]
  rw [if_neg hgt, hl]
  simp only [if_pos hple]

theorem stepC_expand_none {c : Config} {e : Entry} {rest : List Entry}
    (hq : c.queue = e :: rest) (hgt : ¬ c.result ≤ e.est)
    (hl : lookupA e.data c.states = none) :
    stepC c = expandStep e rest c.states c.result := by
  simp only [stepC, hq]
  rw [if_neg hgt, hl]

theorem stepC_expand_some {c : Config} {e : Entry} {rest : List Entry}
    {p : Nat} (hq : c.queue = e :: rest) (hgt : ¬ c.result ≤ e.est)
    (hl : lookupA e.data c.states = some p) (hpgt : ¬ p ≤ e.en) :
    stepC c = expandStep e rest c.states c.result := by
  simp only [stepC, hq]
  rw [if_neg hgt, hl]
  simp only [if_neg hpgt]

theorem expandStep_queue (e : Entry) (rest : List Entry)
    (st : List (List Nat × Nat)) (r : Nat) :
    (expandStep e rest st r).queue
      = (mkChildren e).foldl (fun q c => pushQ c q) rest := rfl

theorem expandStep_states (e : Entry) (rest : List Entry)
    (st : List (List Nat × Nat)) (r : Nat) :
    (expandStep e rest st r).states = (e.data, e.en) :: st := rfl

theorem expandStep_result (e : Entry) (rest : List Entry)
    (st : List (List Nat × Nat)) (r : Nat) :
    (expandStep e rest st r).result
      = if e.act.isEmpty && decide (e.en < r) then e.en else r := rfl

theorem expandStep_result_le (e : Entry) (rest : List Entry)
    (st : List (List Nat × Nat)) (r : Nat) :
    (expandStep e rest st r).result ≤ r := by
  rw [expandStep_result]
  split_ifs with h
  · rw [Bool.and_eq_true] at h
    have := of_decide_eq_true h.2
    omega
  · exact le_rfl

/-! ### The visited table never holds a key that could be improved -/

theorem inv_lookup_le {d0 : List Nat} {c : Config} (h : Inv d0 c)
    {e : Entry} {rest : List Entry} (hq : c.queue = e :: rest)
    {p : Nat} (hl : lookupA e.data c.states = some p) : p ≤ e.en := by
  obtain ⟨hpw, hent, hst, hres, hnd, hkv⟩ := h
  have hmem : e ∈ c.queue := by rw [hq]; exact List.mem_cons_self e rest
  have h1 := (hst e.data p hl).2.2.2 e hmem
  have h2 := (hent e hmem).2.1
  omega

/-! ### Preservation of the master invariant -/

theorem inv_discard {d0 : List Nat} {c : Config} (h : Inv d0 c)
    {e : Entry} {rest : List Entry} (hq : c.queue = e :: rest) :
    Inv d0 ⟨rest, c.states, c.result⟩ := by
  obtain ⟨hpw, hent, hst, hres, hnd, hkv⟩ := h
  rw [hq] at hpw hent
  rw [List.pairwise_cons] at hpw
  refine ⟨hpw.2, fun x hx => hent x (List.mem_cons_of_mem e hx),
    ?_, hres, hnd, hkv⟩
  intro d v hl
  obtain ⟨h1, h2, h3, h4⟩ := hst d v hl
  exact ⟨h1, h2, h3, fun x hx => h4 x (by rw [hq]; exact List.mem_cons_of_mem e hx)⟩

theorem inv_expand {d0 : List Nat} {c : Config} (h : Inv d0 c)
    {e : Entry} {rest : List Entry} (hq : c.queue = e :: rest)
    (hl : lookupA e.data c.states = none) :
    Inv d0 (expandStep e rest c.states c.result) := by
  obtain ⟨hpw, hent, hst, hres, hnd, hkv⟩ := h
  have hmem : e ∈ c.queue := by rw [hq]; exact List.mem_cons_self e rest
  have hEOK := hent e hmem
  rw [hq] at hpw
  rw [List.pairwise_cons] at hpw
  have hmin : ∀ x ∈ rest, e.est ≤ x.est := hpw.1
  have hch : ∀ ch ∈ mkChildren e, EntryOK d0 ch ∧ e.est ≤ ch.est :=
    fun ch hc => mkChildren_ok hEOK hc
  have hq2 : ∀ x, x ∈ (expandStep e rest c.states c.result).queue ↔
      x ∈ rest ∨ x ∈ mkChildren e := by
    intro x
    rw [expandStep_queue]
    exact mem_foldl_pushQ
  have hr2le := expandStep_result_le e rest c.states c.result
  refine ⟨?_, ?_, ?_, ?_, ?_, ?_⟩
  · rw [expandStep_queue]
    exact pairwise_foldl_pushQ hpw.2
  · intro x hx
    rcases (hq2 x).mp hx with hx | hx
    · exact hent x (by rw [hq]; exact List.mem_cons_of_mem e hx)
    · exact (hch x hx).1
  · intro d v hlk
    rw [expandStep_states, lookupA_cons] at hlk
    by_cases hdd : d = e.data
    · rw [if_pos hdd] at hlk
      have hv : v = e.en := by
        injection hlk with h
        exact h.symm
      subst hv
      subst hdd
      refine ⟨hEOK.1, hEOK.2.2.1, ?_, ?_⟩
      · intro hgoal
        have hnil : e.act = [] := (act_nil_iff_goal hEOK.2.2.2.2).mpr hgoal
        rw [expandStep_result]
        have : e.act.isEmpty = true := by rw [hnil]; rfl
        rw [this]
        by_cases hlt : e.en < c.result
        · simp [hlt]
        · simp [hlt]
          omega
      · intro x hx
        rcases (hq2 x).mp hx with hx | hx
        · have := hmin x hx
          have := hEOK.2.1
          omega
        · have := (hch x hx).2
          have := hEOK.2.1
          omega
    · rw [if_neg hdd] at hlk
      obtain ⟨h1, h2, h3, h4⟩ := hst d v hlk
      refine ⟨h1, h2, fun hg => le_trans hr2le (h3 hg), ?_⟩
      intro x hx
      rcases (hq2 x).mp hx with hx | hx
      · exact h4 x (by rw [hq]; exact List.mem_cons_of_mem e hx)
      · exact le_trans (h4 e hmem) (hch x hx).2
  · rw [expandStep_result]
    by_cases hcond : (e.act.isEmpty && decide (e.en < c.result)) = true
    · rw [if_pos hcond]
      rw [Bool.and_eq_true] at hcond
      right
      refine ⟨e.data, hEOK.2.2.1, ?_⟩
      have hnil : e.act = [] := by
        have := hcond.1
        rwa [List.isEmpty_iff] at this
      exact (act_nil_iff_goal hEOK.2.2.2.2).mp hnil
    · rw [if_neg hcond]
      exact hres
  · rw [expandStep_states]
    simp only [List.map_cons]
    rw [List.nodup_cons]
    exact ⟨lookupA_none_iff.mp hl, hnd⟩
  · intro kv hkv2
    rw [expandStep_states] at hkv2
    rcases List.mem_cons.mp hkv2 with hkv2 | hkv2
    · rw [hkv2]
      exact hEOK.1
    · exact hkv kv hkv2

/-- One loop iteration preserves the master invariant. -/
theorem stepC_inv {d0 : List Nat} {c : Config} (h : Inv d0 c) :
    Inv d0 (stepC c) := by
  rcases hq : c.queue with _ | ⟨e, rest⟩
  · rw [stepC_nil hq]
    exact h
  · by_cases hle : c.result ≤ e.est
    · rw [stepC_discard1 hq hle]
      exact inv_discard h hq
    · rcases hlk : lookupA e.data c.states with _ | p
      · rw [stepC_expand_none hq hle hlk]
        exact inv_expand h hq hlk
      · have hple := inv_lookup_le h hq hlk
        rw [stepC_discard2 hq hle hlk hple]
        exact inv_discard h hq

/-- The invariant holds for the initial configuration of a well-formed
input array. -/
theorem inv_init {d0 : List Nat} (h : Valid d0) : Inv d0 (initConfig d0) := by
  refine ⟨?_, ?_, ?_, ?_, ?_, ?_⟩
  · exact List.pairwise_singleton _ _
  · intro e he
    rw [initConfig] at he
    simp only [List.mem_singleton] at he
    subst he
    refine ⟨h, rfl, Reach.refl d0, ?_, ?_⟩
    · show (activeOf d0).Nodup
      exact (List.nodup_range 15).filter _
    · intro i
      show i ∈ activeOf d0 ↔ _
      simp only [activeOf, List.mem_filter, List.mem_range]
      tauto
  · intro d v hl
    simp [initConfig, lookupA] at hl
  · left
    rfl
  · simp [initConfig]
  · intro kv hkv
    simp [initConfig] at hkv

/-! ### Loop-level lemmas -/

theorem loopF_nil {f : Nat} {c : Config} (h : c.queue = []) :
    loopF f c = some c.result := by
  rcases c with ⟨q, st, r⟩
  dsimp only at h
  subst h
  cases f <;> rfl

theorem loopF_cons {f : Nat} {c : Config} (h : c.queue ≠ []) :
    loopF (f + 1) c = loopF f (stepC c) := by
  rcases c with ⟨q, st, r⟩
  rcases q with _ | ⟨e, rest⟩
  · exact absurd rfl h
  · rfl

theorem loopF_zero {c : Config} (h : c.queue ≠ []) : loopF 0 c = none := by
  rcases c with ⟨q, st, r⟩
  rcases q with _ | ⟨e, rest⟩
  · exact absurd rfl h
  · rfl

/-- Whatever the loop returns is either the untouched sentinel or the
cost of an actual legal move sequence to a goal state (soundness). -/
theorem loopF_sound {d0 : List Nat} {f : Nat} {c : Config}
    (hInv : Inv d0 c) {r : Nat} (h : loopF f c = some r) :
    r = SENT ∨ ∃ g, Reach d0 r g ∧ isGoal g = true := by
  induction f generalizing c with
  | zero =>
    by_cases hq : c.queue = []
    · rw [loopF_nil hq] at h
      injection h with h
      subst h
      exact hInv.2.2.2.1
    · rw [loopF_zero hq] at h
      exact absurd h (by simp)
  | succ f ih =>
    by_cases hq : c.queue = []
    · rw [loopF_nil hq] at h
      injection h with h
      subst h
      exact hInv.2.2.2.1
    · rw [loopF_cons hq] at h
      exact ih (stepC_inv hInv) h

/-- Once the best known result lower-bounds every frontier estimate, the
rest of the run only drains the frontier: the reported result is exactly
the current best known one. -/
theorem loopF_drain {f : Nat} {c : Config}
    (hpw : c.queue.Pairwise fun a b => a.est ≤ b.est)
    (hhead : ∀ x ∈ c.queue, c.result ≤ x.est)
    {r : Nat} (h : loopF f c = some r) : r = c.result := by
  induction f generalizing c with
  | zero =>
    by_cases hq : c.queue = []
    · rw [loopF_nil hq] at h
      injection h with h
      exact h.symm
    · rw [loopF_zero hq] at h
      exact absurd h (by simp)
  | succ f ih =>
    rcases hq : c.queue with _ | ⟨e, rest⟩
    · rw [loopF_nil hq] at h
      injection h with h
      exact h.symm
    · rw [loopF_cons (by rw [hq]; simp)] at h
      have hle : c.result ≤ e.est := hhead e (by rw [hq]; exact List.mem_cons_self e rest)
      rw [stepC_discard1 hq hle] at h
      rw [hq] at hpw
      rw [List.pairwise_cons] at hpw
      exact ih (c := ⟨rest, c.states, c.result⟩) hpw.2
        (fun x hx => hhead x (by rw [hq]; exact List.mem_cons_of_mem e hx)) h

/-! ### Configurations visited during one run -/

/-- `Reaches a b`: the loop, started at configuration `a`, passes through
configuration `b` after some number of iterations. -/
def Reaches (a b : Config) : Prop :=
  Relation.ReflTransGen (fun x y => x.queue ≠ [] ∧ y = stepC x) a b

theorem reaches_inv {d0 : List Nat} {a b : Config} (h : Inv d0 a)
    (hr : Reaches a b) : Inv d0 b := by
  induction hr with
  | refl => exact h
  | tail _ hstep ih =>
    rw [hstep.2]
    exact stepC_inv ih

/-! ### Move sequences as data (chains), for the optimality argument -/

/-- A chain of legal moves: each element records one step's cost and the
array it produces. -/
def ChainSteps : List Nat → List (Nat × List Nat) → Prop
  | _, [] => True
  | d, (c, d2) :: L => StepR d c d2 ∧ ChainSteps d2 L

/-- The `i`-th array along a chain starting at `d` (0 is `d` itself). -/
def nodeAt (d : List Nat) (L : List (Nat × List Nat)) (i : Nat) : List Nat :=
  (d :: L.map Prod.snd).getD i []

/-- The accumulated cost of the first `i` steps of a chain. -/
def pcost (L : List (Nat × List Nat)) (i : Nat) : Nat :=
  ((L.map Prod.fst).take i).sum

/-- The total cost of a chain. -/
def total (L : List (Nat × List Nat)) : Nat :=
  (L.map Prod.fst).sum

theorem nodeAt_zero {d : List Nat} {L : List (Nat × List Nat)} :
    nodeAt d L 0 = d := rfl

theorem pcost_zero {L : List (Nat × List Nat)} : pcost L 0 = 0 := rfl

theorem pcost_total {L : List (Nat × List Nat)} :
    pcost L L.length = total L := by
  unfold pcost total
  rw [List.take_of_length_le (by simp)]

theorem nodeAt_cons_succ {d : List Nat} {p : Nat × List Nat}
    {L : List (Nat × List Nat)} {i : Nat} :
    nodeAt d (p :: L) (i + 1) = nodeAt p.2 L i := rfl

theorem pcost_cons_succ {p : Nat × List Nat} {L : List (Nat × List Nat)}
    {i : Nat} : pcost (p :: L) (i + 1) = p.1 + pcost L i := by
  unfold pcost
  simp

theorem chain_step_at {d : List Nat} {L : List (Nat × List Nat)}
    (h : ChainSteps d L) :
    ∀ i < L.length, StepR (nodeAt d L i) (L.getD i (0, [])).1
      (nodeAt d L (i + 1)) := by
  induction L generalizing d with
  | nil => intro i hi; exact absurd hi (by simp)
  | cons p L ih =>
    obtain ⟨c, d2⟩ := p
    obtain ⟨hstep, hrest⟩ := h
    intro i hi
    match i with
    | 0 => exact hstep
    | j + 1 =>
      have := ih hrest j (by simpa using hi)
      rw [nodeAt_cons_succ, nodeAt_cons_succ]
      exact this

theorem pcost_succ_eq {L : List (Nat × List Nat)} {i : Nat}
    (hi : i < L.length) :
    pcost L (i + 1) = pcost L i + (L.getD i (0, [])).1 := by
  induction L generalizing i with
  | nil => exact absurd hi (by simp)
  | cons p L ih =>
    match i with
    | 0 => simp [pcost_cons_succ, pcost_zero]
    | j + 1 =>
      rw [pcost_cons_succ, pcost_cons_succ, ih (by simpa using hi)]
      simp [Nat.add_assoc]

theorem chain_valid {d : List Nat} {L : List (Nat × List Nat)}
    (h : ChainSteps d L) (hd : Valid d) :
    ∀ i ≤ L.length, Valid (nodeAt d L i) := by
  induction L generalizing d with
  | nil =>
    intro i hi
    have hz : i = 0 := by simpa using hi
    subst hz
    exact hd
  | cons p L ih =>
    obtain ⟨c, d2⟩ := p
    obtain ⟨hstep, hrest⟩ := h
    intro i hi
    match i with
    | 0 => exact hd
    | j + 1 =>
      rw [nodeAt_cons_succ]
      exact ih hrest (stepR_valid hstep hd) j (by simpa using hi)

/-- The suffix of a chain from position `i` is itself a legal move
sequence to the chain's end, of cost `total - pcost i`. -/
theorem chain_suffix_reach {d : List Nat} {L : List (Nat × List Nat)}
    (h : ChainSteps d L) :
    ∀ i ≤ L.length, ∃ cs, pcost L i + cs = total L ∧
      Reach (nodeAt d L i) cs (nodeAt d L L.length) := by
  induction L generalizing d with
  | nil =>
    intro i hi
    have hz : i = 0 := by simpa using hi
    subst hz
    exact ⟨0, rfl, Reach.refl d⟩
  | cons p L ih =>
    obtain ⟨c, d2⟩ := p
    obtain ⟨hstep, hrest⟩ := h
    intro i hi
    match i with
    | 0 =>
      obtain ⟨cs, hcs, hr⟩ := ih hrest 0 (by simp)
      rw [pcost_zero] at hcs
      refine ⟨c + cs, ?_, ?_⟩
      · rw [pcost_zero]
        unfold total at hcs ⊢
        simp only [List.map_cons, List.sum_cons]
        omega
      · rw [nodeAt_zero]
        rw [nodeAt_zero] at hr
        have hlen : nodeAt d ((c, d2) :: L) (L.length + 1)
            = nodeAt d2 L L.length := nodeAt_cons_succ
        simp only [List.length_cons, hlen]
        exact Reach.step hstep hr
    | j + 1 =>
      obtain ⟨cs, hcs, hr⟩ := ih hrest j (by simpa using hi)
      refine ⟨cs, ?_, ?_⟩
      · rw [pcost_cons_succ]
        unfold total at hcs ⊢
        simp only [List.map_cons, List.sum_cons]
        omega
      · rw [nodeAt_cons_succ]
        simp only [List.length_cons]
        have hlen : nodeAt d ((c, d2) :: L) (L.length + 1)
            = nodeAt d2 L L.length := nodeAt_cons_succ
        rw [hlen]
        exact hr

/-- A `Reach` derivation yields a chain with the same cost and end. -/
theorem reach_to_chain {d g : List Nat} {c : Nat} (h : Reach d c g) :
    ∃ L, ChainSteps d L ∧ total L = c ∧ nodeAt d L L.length = g := by
  induction h with
  | refl d => exact ⟨[], trivial, rfl, rfl⟩
  | step hstep hrest ih =>
    obtain ⟨L, hch, htot, hend⟩ := ih
    rename_i d c1 d1 c2 d2
    refine ⟨(c1, d1) :: L, ⟨hstep, hch⟩, ?_, ?_⟩
    · unfold total at htot ⊢
      simp only [List.map_cons, List.sum_cons]
      omega
    · simp only [List.length_cons]
      rw [nodeAt_cons_succ]
      exact hend

/-- Suffix admissibility: at each position of a goal-reaching chain from
a valid array, the heuristic plus the accumulated cost never exceeds the
chain's total cost. -/
theorem esti_node_le {d : List Nat} {L : List (Nat × List Nat)}
    (h : ChainSteps d L) (hd : Valid d)
    (hg : isGoal (nodeAt d L L.length) = true) :
    ∀ i ≤ L.length, get_estimation (nodeAt d L i) + pcost L i ≤ total L := by
  intro i hi
  obtain ⟨cs, hcs, hr⟩ := chain_suffix_reach h i hi
  have := reach_goal_esti hr (chain_valid h hd i hi) hg
  omega

/-! ### The completeness invariant: along a fixed goal-reaching chain,
every prefix-closed position is itself closed or enqueued cheaply enough,
unless the best known result already beats the chain. -/

/-- Position closed: the visited table holds the array at a cost no
larger than the chain's prefix cost there. -/
def Closed (st : List (List Nat × Nat)) (nd : List Nat) (pc : Nat) : Prop :=
  ∃ v, lookupA nd st = some v ∧ v ≤ pc

/-- Position enqueued: some frontier entry carries the array at an
accumulated cost no larger than the chain's prefix cost there. -/
def Enq (q : List Entry) (nd : List Nat) (pc : Nat) : Prop :=
  ∃ x ∈ q, x.data = nd ∧ x.en ≤ pc

/-- The completeness invariant relative to a fixed chain `L` from `d0`. -/
def CovInv (d0 : List Nat) (L : List (Nat × List Nat)) (c : Config) : Prop :=
  c.result ≤ total L ∨
    ((Closed c.states (nodeAt d0 L 0) (pcost L 0) ∨
        Enq c.queue (nodeAt d0 L 0) (pcost L 0)) ∧
      ∀ i < L.length,
        Closed c.states (nodeAt d0 L i) (pcost L i) →
          Closed c.states (nodeAt d0 L (i + 1)) (pcost L (i + 1)) ∨
            Enq c.queue (nodeAt d0 L (i + 1)) (pcost L (i + 1)))

theorem stepC_result_le (c : Config) : (stepC c).result ≤ c.result := by
  rcases hq : c.queue with _ | ⟨e, rest⟩
  · rw [stepC_nil hq]
  · by_cases hle : c.result ≤ e.est
    · rw [stepC_discard1 hq hle]
    · rcases hlk : lookupA e.data c.states with _ | p
      · rw [stepC_expand_none hq hle hlk]
        exact expandStep_result_le e rest c.states c.result
      · by_cases hple : p ≤ e.en
        · rw [stepC_discard2 hq hle hlk hple]
        · rw [stepC_expand_some hq hle hlk hple]
          exact expandStep_result_le e rest c.states c.result

/-- One loop iteration preserves the completeness invariant. -/
theorem stepC_cov {d0 : List Nat} {L : List (Nat × List Nat)} {c : Config}
    (hInv : Inv d0 c) (hch : ChainSteps d0 L) (hv : Valid d0)
    (hg : isGoal (nodeAt d0 L L.length) = true)
    (hcov : CovInv d0 L c) : CovInv d0 L (stepC c) := by
  rcases hcov with hres | ⟨hbase, hsteps⟩
  · left
    exact le_trans (stepC_result_le c) hres
  rcases hq : c.queue with _ | ⟨e, rest⟩
  · rw [stepC_nil hq]
    right
    exact ⟨hbase, hsteps⟩
  have hEOK := hInv.2.1 e (by rw [hq]; exact List.mem_cons_self e rest)
  by_cases hle : c.result ≤ e.est
  · -- the popped entry is discarded by the best-known-result check
    rw [stepC_discard1 hq hle]
    by_cases hEw : (e.data = nodeAt d0 L 0 ∧ e.en ≤ pcost L 0) ∨
        ∃ i, i < L.length ∧ e.data = nodeAt d0 L (i + 1) ∧
          e.en ≤ pcost L (i + 1)
    · -- the popped entry witnessed a chain position: escape left,
      -- the best known result already beats the whole chain
      left
      show c.result ≤ total L
      have hest := hEOK.2.1
      rcases hEw with ⟨hd0, he0⟩ | ⟨i, hi, hdi, hei⟩
      · have hadm := esti_node_le hch hv hg 0 (Nat.zero_le _)
        rw [← hd0] at hadm
        omega
      · have hadm := esti_node_le hch hv hg (i + 1) (by omega)
        rw [← hdi] at hadm
        omega
    · right
      constructor
      · rcases hbase with hb | hb
        · left
          exact hb
        · obtain ⟨x, hx, hxd, hxe⟩ := hb
          rw [hq] at hx
          rcases List.mem_cons.mp hx with hx | hx
          · exact absurd (Or.inl ⟨hx ▸ hxd, hx ▸ hxe⟩) hEw
          · right
            exact ⟨x, hx, hxd, hxe⟩
      · intro i hi hcl
        rcases hsteps i hi hcl with h | h
        · left
          exact h
        · obtain ⟨x, hx, hxd, hxe⟩ := h
          rw [hq] at hx
          rcases List.mem_cons.mp hx with hx | hx
          · exact absurd (Or.inr ⟨i, hi, hx ▸ hxd, hx ▸ hxe⟩) hEw
          · right
            exact ⟨x, hx, hxd, hxe⟩
  · rcases hlk : lookupA e.data c.states with _ | p
    · -- expansion of the popped entry
      rw [stepC_expand_none hq hle hlk]
      right
      have hst2 : (expandStep e rest c.states c.result).states
          = (e.data, e.en) :: c.states := expandStep_states e rest c.states c.result
      have hclosed_mono : ∀ nd pc, Closed c.states nd pc →
          Closed (expandStep e rest c.states c.result).states nd pc := by
        rintro nd pc ⟨v, hlv, hvle⟩
        refine ⟨v, ?_, hvle⟩
        rw [hst2, lookupA_cons]
        have hne : nd ≠ e.data := by
          intro hcon
          rw [hcon, hlk] at hlv
          exact Option.noConfusion hlv
        rw [if_neg hne]
        exact hlv
      have hclosedE : ∀ j, e.data = nodeAt d0 L j → e.en ≤ pcost L j →
          Closed (expandStep e rest c.states c.result).states
            (nodeAt d0 L j) (pcost L j) := by
        intro j hdj hej
        refine ⟨e.en, ?_, hej⟩
        rw [hst2, ← hdj, lookupA_cons, if_pos rfl]
      have hq2 : ∀ x : Entry,
          x ∈ (expandStep e rest c.states c.result).queue ↔
            x ∈ rest ∨ x ∈ mkChildren e := by
        intro x
        rw [expandStep_queue]
        exact mem_foldl_pushQ
      have hEnq_mono : ∀ nd pc, Enq c.queue nd pc →
          Enq (expandStep e rest c.states c.result).queue nd pc ∨
            (e.data = nd ∧ e.en ≤ pc) := by
        rintro nd pc ⟨x, hx, hxd, hxe⟩
        rw [hq] at hx
        rcases List.mem_cons.mp hx with hx | hx
        · right
          exact ⟨hx ▸ hxd, hx ▸ hxe⟩
        · left
          exact ⟨x, (hq2 x).mpr (Or.inl hx), hxd, hxe⟩
      have hpush : ∀ i, i < L.length → e.data = nodeAt d0 L i →
          e.en ≤ pcost L i →
            Enq (expandStep e rest c.states c.result).queue
              (nodeAt d0 L (i + 1)) (pcost L (i + 1)) := by
        intro i hi hdi hei
        obtain ⟨s, t, w, hact, hlnk, hacc, hdd2, hcc⟩ := chain_step_at hch i hi
        have hsact : s ∈ e.act := (hEOK.2.2.2.2 s).mpr
          ⟨(links_mem hlnk).1, by rw [hdi]; exact hact⟩
        have hget0 : get s e.data ≠ 0 := by
          rw [hdi]
          have h1 := active_getv_pos hact
          unfold get
          omega
        have hcm : (t, w) ∈ candidate_moves s e.data :=
          candidate_moves_mem_of hget0 hlnk (by rw [hdi]; exact hacc)
        have hchld : mkChild e s t w ∈ mkChildren e :=
          mkChildren_mem.mpr ⟨s, hsact, (t, w), hcm, rfl⟩
        refine ⟨mkChild e s t w, (hq2 _).mpr (Or.inr hchld), ?_, ?_⟩
        · rw [mkChild_def]
          dsimp only
          rw [hdi]
          exact hdd2.symm
        · rw [mkChild_def]
          dsimp only
          rw [hdi, ← hcc, pcost_succ_eq hi]
          omega
      constructor
      · rcases hbase with hb | hb
        · left
          exact hclosed_mono _ _ hb
        · rcases hEnq_mono _ _ hb with h2 | ⟨hd0, he0⟩
          · right
            exact h2
          · left
            exact hclosedE 0 hd0 he0
      · intro i hi hcl2
        have hcl2' : Closed c.states (nodeAt d0 L i) (pcost L i) ∨
            (e.data = nodeAt d0 L i ∧ e.en ≤ pcost L i) := by
          obtain ⟨v, hlv, hvle⟩ := hcl2
          rw [hst2, lookupA_cons] at hlv
          by_cases hnd : nodeAt d0 L i = e.data
          · rw [if_pos hnd] at hlv
            injection hlv with hlv
            right
            exact ⟨hnd.symm, by omega⟩
          · rw [if_neg hnd] at hlv
            left
            exact ⟨v, hlv, hvle⟩
        rcases hcl2' with hcl | ⟨hdi, hei⟩
        · rcases hsteps i hi hcl with h | h
          · left
            exact hclosed_mono _ _ h
          · rcases hEnq_mono _ _ h with h2 | ⟨hdd, hee⟩
            · right
              exact h2
            · left
              exact hclosedE (i + 1) hdd hee
        · right
          exact hpush i hi hdi hei
    · -- the popped entry is discarded by the visited-table check
      have hple := inv_lookup_le hInv hq hlk
      rw [stepC_discard2 hq hle hlk hple]
      right
      have hclE : ∀ j, e.data = nodeAt d0 L j → e.en ≤ pcost L j →
          Closed c.states (nodeAt d0 L j) (pcost L j) := by
        intro j hdj hej
        exact ⟨p, by rw [← hdj]; exact hlk, by omega⟩
      constructor
      · rcases hbase with hb | hb
        · left
          exact hb
        · obtain ⟨x, hx, hxd, hxe⟩ := hb
          rw [hq] at hx
          rcases List.mem_cons.mp hx with hx | hx
          · left
            exact hclE 0 (hx ▸ hxd) (hx ▸ hxe)
          · right
            exact ⟨x, hx, hxd, hxe⟩
      · intro i hi hcl
        rcases hsteps i hi hcl with h | h
        · left
          exact h
        · obtain ⟨x, hx, hxd, hxe⟩ := h
          rw [hq] at hx
          rcases List.mem_cons.mp hx with hx | hx
          · left
            exact hclE (i + 1) (hx ▸ hxd) (hx ▸ hxe)
          · right
            exact ⟨x, hx, hxd, hxe⟩

theorem cov_init {d0 : List Nat} {L : List (Nat × List Nat)} :
    CovInv d0 L (initConfig d0) := by
  right
  constructor
  · right
    refine ⟨initEntry d0, ?_, rfl, le_rfl⟩
    simp [initConfig]
  · intro i hi hcl
    obtain ⟨v, hv, -⟩ := hcl
    exact Option.noConfusion hv

theorem cov_empty {d0 : List Nat} {L : List (Nat × List Nat)} {c : Config}
    (hq : c.queue = []) (hInv : Inv d0 c) (hcov : CovInv d0 L c)
    (hg : isGoal (nodeAt d0 L L.length) = true) :
    c.result ≤ total L := by
  rcases hcov with h | ⟨hbase, hsteps⟩
  · exact h
  have hnoenq : ∀ nd pc, ¬ Enq c.queue nd pc := by
    rintro nd pc ⟨x, hx, -⟩
    rw [hq] at hx
    exact absurd hx (List.not_mem_nil x)
  have hbase2 : Closed c.states (nodeAt d0 L 0) (pcost L 0) := by
    rcases hbase with h | h
    · exact h
    · exact absurd h (hnoenq _ _)
  have hall : ∀ i, i ≤ L.length → Closed c.states (nodeAt d0 L i) (pcost L i) := by
    intro i
    induction i with
    | zero => intro _; exact hbase2
    | succ j ih =>
      intro hj
      rcases hsteps j (by omega) (ih (by omega)) with h | h
      · exact h
      · exact absurd h (hnoenq _ _)
  obtain ⟨v, hlv, hvle⟩ := hall L.length le_rfl
  have := (hInv.2.2.1 _ _ hlv).2.2.1 hg
  rw [pcost_total] at hvle
  omega

/-- The reported result never exceeds the total cost of any goal-reaching
chain (carried through the whole loop). -/
theorem loopF_cov {d0 : List Nat} {L : List (Nat × List Nat)} {f : Nat}
    {c : Config} (hInv : Inv d0 c) (hch : ChainSteps d0 L) (hv : Valid d0)
    (hg : isGoal (nodeAt d0 L L.length) = true) (hcov : CovInv d0 L c)
    {r : Nat} (h : loopF f c = some r) : r ≤ total L := by
  induction f generalizing c with
  | zero =>
    by_cases hq : c.queue = []
    · rw [loopF_nil hq] at h
      injection h with h
      subst h
      exact cov_empty hq hInv hcov hg
    · rw [loopF_zero hq] at h
      exact absurd h (by simp)
  | succ f ih =>
    by_cases hq : c.queue = []
    · rw [loopF_nil hq] at h
      injection h with h
      subst h
      exact cov_empty hq hInv hcov hg
    · rw [loopF_cons hq] at h
      exact ih (stepC_inv hInv) (stepC_cov hInv hch hv hg hcov) h

/-- The loop never reports more than the cost of any legal move sequence
from the initial array to a goal state. -/
theorem loop_le_reach {d0 : List Nat} (hval : Valid d0) {f r : Nat}
    (h : loopF f (initConfig d0) = some r) {cg : Nat} {g : List Nat}
    (hr : Reach d0 cg g) (hgl : isGoal g = true) : r ≤ cg := by
  obtain ⟨L, hch, htot, hend⟩ := reach_to_chain hr
  have := loopF_cov (inv_init hval) hch hval (by rw [hend]; exact hgl)
    cov_init h
  omega

/-! ### Counting the possible state arrays (for termination) -/

/-- The number of well-formed state arrays: 11 hallway slots with 5
possible values each, 4 destination slots with 25 each. -/
def NVAL : Nat := 5 ^ 11 * 25 ^ 4

/-- Mixed-radix encoding of a well-formed state array. -/
def encodeD (d : List Nat) : Nat :=
  d.getD 0 0 + 5 * (d.getD 1 0 + 5 * (d.getD 2 0 + 5 * (d.getD 3 0 +
    5 * (d.getD 4 0 + 5 * (d.getD 5 0 + 5 * (d.getD 6 0 + 5 * (d.getD 7 0 +
    5 * (d.getD 8 0 + 5 * (d.getD 9 0 + 5 * (d.getD 10 0 + 5 * (d.getD 11 0 +
    25 * (d.getD 12 0 + 25 * (d.getD 13 0 + 25 * d.getD 14 0)))))))))))))

theorem valid_bounds {d : List Nat} (h : Valid d) :
    (∀ i < 11, d.getD i 0 ≤ 4) ∧ (∀ i < 15, 11 ≤ i → d.getD i 0 ≤ 24) :=
  ⟨h.2.1, h.2.2⟩

theorem encodeD_lt {d : List Nat} (h : Valid d) : encodeD d < NVAL := by
  obtain ⟨hb1, hb2⟩ := valid_bounds h
  have h0 := hb1 0 (by omega)
  have h1 := hb1 1 (by omega)
  have h2 := hb1 2 (by omega)
  have h3 := hb1 3 (by omega)
  have h4 := hb1 4 (by omega)
  have h5 := hb1 5 (by omega)
  have h6 := hb1 6 (by omega)
  have h7 := hb1 7 (by omega)
  have h8 := hb1 8 (by omega)
  have h9 := hb1 9 (by omega)
  have h10 := hb1 10 (by omega)
  have h11 := hb2 11 (by omega) (by omega)
  have h12 := hb2 12 (by omega) (by omega)
  have h13 := hb2 13 (by omega) (by omega)
  have h14 := hb2 14 (by omega) (by omega)
  have hn : NVAL = 19073486328125 := by norm_num [NVAL]
  rw [hn]
  unfold encodeD
  omega

theorem encodeD_inj {d d2 : List Nat} (h : Valid d) (h2 : Valid d2)
    (he : encodeD d = encodeD d2) : d = d2 := by
  obtain ⟨hb1, hb2⟩ := valid_bounds h
  obtain ⟨hc1, hc2⟩ := valid_bounds h2
  have hg : ∀ i < 15, d.getD i 0 = d2.getD i 0 := by
    have h0 := hb1 0 (by omega)
    have h1 := hb1 1 (by omega)
    have h2a := hb1 2 (by omega)
    have h3 := hb1 3 (by omega)
    have h4 := hb1 4 (by omega)
    have h5 := hb1 5 (by omega)
    have h6 := hb1 6 (by omega)
    have h7 := hb1 7 (by omega)
    have h8 := hb1 8 (by omega)
    have h9 := hb1 9 (by omega)
    have h10 := hb1 10 (by omega)
    have h11 := hb2 11 (by omega) (by omega)
    have h12 := hb2 12 (by omega) (by omega)
    have h13 := hb2 13 (by omega) (by omega)
    have h14 := hb2 14 (by omega) (by omega)
    have k0 := hc1 0 (by omega)
    have k1 := hc1 1 (by omega)
    have k2 := hc1 2 (by omega)
    have k3 := hc1 3 (by omega)
    have k4 := hc1 4 (by omega)
    have k5 := hc1 5 (by omega)
    have k6 := hc1 6 (by omega)
    have k7 := hc1 7 (by omega)
    have k8 := hc1 8 (by omega)
    have k9 := hc1 9 (by omega)
    have k10 := hc1 10 (by omega)
    have k11 := hc2 11 (by omega) (by omega)
    have k12 := hc2 12 (by omega) (by omega)
    have k13 := hc2 13 (by omega) (by omega)
    have k14 := hc2 14 (by omega) (by omega)
    unfold encodeD at he
    intro i hi
    interval_cases i <;> omega
  have hlen : d.length = d2.length := by rw [h.1, h2.1]
  apply List.ext_getElem hlen
  intro i hi1 hi2
  have hd15 : d.length = 15 := h.1
  have hi15 : i < 15 := by omega
  rw [← List.getD_eq_getElem d 0 hi1, ← List.getD_eq_getElem d2 0 hi2]
  exact hg i hi15

/-- A duplicate-free list of well-formed arrays has at most `NVAL`
elements. -/
theorem nodup_valid_length {l : List (List Nat)} (hnd : l.Nodup)
    (hv : ∀ x ∈ l, Valid x) : l.length ≤ NVAL := by
  have hmapnd : (l.map encodeD).Nodup := by
    apply hnd.map_on
    intro x hx y hy hexy
    exact encodeD_inj (hv x hx) (hv y hy) hexy
  have hsub : (l.map encodeD).toFinset ⊆ Finset.range NVAL := by
    intro v hvm
    rw [List.mem_toFinset, List.mem_map] at hvm
    obtain ⟨x, hx, hxe⟩ := hvm
    rw [Finset.mem_range, ← hxe]
    exact encodeD_lt (hv x hx)
  have hcard := Finset.card_le_card hsub
  rw [List.toFinset_card_of_nodup hmapnd, Finset.card_range] at hcard
  simpa using hcard

/-! ### The loop terminates: a decreasing potential -/

theorem pushQ_length {ch : Entry} {q : List Entry} :
    (pushQ ch q).length = q.length + 1 := by
  induction q with
  | nil => rfl
  | cons x xs ih =>
    rw [pushQ]
    split_ifs
    · simp
    · simp [ih]

theorem foldl_pushQ_length {l : List Entry} {q : List Entry} :
    (l.foldl (fun acc c => pushQ c acc) q).length = q.length + l.length := by
  induction l generalizing q with
  | nil => rfl
  | cons c cs ih =>
    rw [List.foldl_cons, ih, pushQ_length, List.length_cons]
    omega

theorem sum_map_le_sum_map {l : List Nat} {f g : Nat → Nat}
    (h : ∀ s ∈ l, f s ≤ g s) : (l.map f).sum ≤ (l.map g).sum := by
  induction l with
  | nil => simp
  | cons x xs ih =>
    simp only [List.map_cons, List.sum_cons]
    have := h x (List.mem_cons_self x xs)
    have := ih fun s hs => h s (List.mem_cons_of_mem x hs)
    omega

theorem sum_links_length :
    (∑ i ∈ Finset.range 15, (links i).length) = 28 := by decide

theorem nodup_bounded_sum_le {l : List Nat} (hnd : l.Nodup)
    (hb : ∀ s ∈ l, s < 15) (g : Nat → Nat) :
    (l.map g).sum ≤ ∑ i ∈ Finset.range 15, g i := by
  rw [← List.sum_toFinset _ hnd]
  apply Finset.sum_le_sum_of_subset
  intro x hx
  rw [List.mem_toFinset] at hx
  rw [Finset.mem_range]
  exact hb x hx

/-- An expansion pushes at most 28 successors (the number of directed
links of the whole board). -/
theorem mkChildren_length_le {d0 : List Nat} {e : Entry}
    (hEOK : EntryOK d0 e) : (mkChildren e).length ≤ 28 := by
  unfold mkChildren
  rw [List.length_flatMap]
  have h1 : ∀ s ∈ e.act,
      ((candidate_moves s e.data).map fun p => mkChild e s p.1 p.2).length
        ≤ (links s).length := by
    intro s hs
    rw [List.length_map]
    unfold candidate_moves
    dsimp only
    split_ifs
    · simp
    · exact List.length_filter_le _ _
  calc (e.act.map fun s =>
        ((candidate_moves s e.data).map fun p => mkChild e s p.1 p.2).length).sum
      ≤ (e.act.map fun s => (links s).length).sum := sum_map_le_sum_map h1
    _ ≤ ∑ i ∈ Finset.range 15, (links i).length :=
        nodup_bounded_sum_le hEOK.2.2.2.1
          (fun s hs => ((hEOK.2.2.2.2 s).mp hs).1) _
    _ = 28 := sum_links_length

/-- The termination potential: frontier length plus 28 credits for every
not-yet-recorded array. -/
def potC (c : Config) : Nat :=
  c.queue.length + 28 * (NVAL - c.states.length)

theorem inv_states_le {d0 : List Nat} {c : Config} (h : Inv d0 c) :
    c.states.length ≤ NVAL := by
  have := nodup_valid_length h.2.2.2.2.1 (by
    intro x hx
    rw [List.mem_map] at hx
    obtain ⟨kv, hkv, hkx⟩ := hx
    rw [← hkx]
    exact h.2.2.2.2.2 kv hkv)
  simpa using this

theorem stepC_pot {d0 : List Nat} {c : Config} (hInv : Inv d0 c)
    (hq : c.queue ≠ []) : potC (stepC c) < potC c := by
  rcases hqe : c.queue with _ | ⟨e, rest⟩
  · exact absurd hqe hq
  have hql : c.queue.length = rest.length + 1 := by rw [hqe]; rfl
  by_cases hle : c.result ≤ e.est
  · rw [stepC_discard1 hqe hle]
    unfold potC
    dsimp only
    omega
  · rcases hlk : lookupA e.data c.states with _ | p
    · have hEOK := hInv.2.1 e (by rw [hqe]; exact List.mem_cons_self e rest)
      have hnew := stepC_inv hInv
      rw [stepC_expand_none hqe hle hlk] at hnew ⊢
      have hslen : (expandStep e rest c.states c.result).states.length
          = c.states.length + 1 := by
        rw [expandStep_states]
        rfl
      have hsle : (expandStep e rest c.states c.result).states.length ≤ NVAL :=
        inv_states_le hnew
      have hqlen : (expandStep e rest c.states c.result).queue.length
          = rest.length + (mkChildren e).length := by
        rw [expandStep_queue, foldl_pushQ_length]
      have hchle := mkChildren_length_le hEOK
      unfold potC
      rw [hqlen, hslen, hql]
      omega
    · have hple := inv_lookup_le hInv hqe hlk
      rw [stepC_discard2 hqe hle hlk hple]
      unfold potC
      dsimp only
      omega

/-- Fuel at least the potential always suffices: the loop reaches the
empty frontier and returns a result. -/
theorem loopF_term {d0 : List Nat} {f : Nat} {c : Config}
    (hInv : Inv d0 c) (hf : potC c ≤ f) : ∃ r, loopF f c = some r := by
  induction f generalizing c with
  | zero =>
    have hq : c.queue = [] := by
      unfold potC at hf
      rw [← List.length_eq_zero]
      omega
    exact ⟨c.result, loopF_nil hq⟩
  | succ f ih =>
    by_cases hq : c.queue = []
    · exact ⟨c.result, loopF_nil hq⟩
    · rw [loopF_cons hq]
      have := stepC_pot hInv hq
      exact ih (stepC_inv hInv) (by omega)

/-- With the fixed fuel `FUEL`, the reference run always completes. -/
theorem searchOut_total {d : List Nat} (h : Valid d) :
    ∃ r, searchOut d = some r := by
  unfold searchOut
  apply loopF_term (inv_init h)
  unfold potC initConfig FUEL NVAL
  simp

/-! ### Any goal cost is realized below the sentinel: chains can be
compressed to duplicate-free ones, which are short and cheap -/

theorem chain_take {d : List Nat} {L : List (Nat × List Nat)} {n : Nat}
    (h : ChainSteps d L) : ChainSteps d (L.take n) := by
  induction L generalizing d n with
  | nil => simp [ChainSteps]
  | cons p L ih =>
    obtain ⟨c, d2⟩ := p
    obtain ⟨hstep, hrest⟩ := h
    match n with
    | 0 => exact trivial
    | m + 1 => exact ⟨hstep, ih hrest⟩

theorem nodeAt_take {d : List Nat} {L : List (Nat × List Nat)}
    {n i : Nat} (hi : i ≤ n) : nodeAt d (L.take n) i = nodeAt d L i := by
  induction L generalizing d n i with
  | nil => simp
  | cons p L ih =>
    match n with
    | 0 =>
      have hz : i = 0 := by omega
      subst hz
      rfl
    | m + 1 =>
      match i with
      | 0 => rfl
      | k + 1 =>
        rw [List.take_succ_cons]
        rw [nodeAt_cons_succ, nodeAt_cons_succ]
        exact ih (by omega)

theorem chain_drop {d : List Nat} {L : List (Nat × List Nat)} {n : Nat}
    (h : ChainSteps d L) : ChainSteps (nodeAt d L n) (L.drop n) := by
  induction L generalizing d n with
  | nil => simp [ChainSteps]
  | cons p L ih =>
    obtain ⟨c, d2⟩ := p
    obtain ⟨hstep, hrest⟩ := h
    match n with
    | 0 => exact ⟨hstep, hrest⟩
    | m + 1 =>
      rw [nodeAt_cons_succ]
      exact ih hrest

theorem nodeAt_drop_end {d : List Nat} {L : List (Nat × List Nat)}
    {n : Nat} (hn : n ≤ L.length) :
    nodeAt (nodeAt d L n) (L.drop n) (L.drop n).length
      = nodeAt d L L.length := by
  induction L generalizing d n with
  | nil =>
    have hz : n = 0 := by simpa using hn
    subst hz
    rfl
  | cons p L ih =>
    match n with
    | 0 => rfl
    | m + 1 =>
      rw [nodeAt_cons_succ]
      have := ih (d := p.2) (n := m) (by simpa using hn)
      simp only [List.drop_succ_cons, List.length_cons]
      rw [this, nodeAt_cons_succ]

theorem nodeAt_append_end {d : List Nat} {A B : List (Nat × List Nat)} :
    nodeAt d (A ++ B) (A ++ B).length
      = nodeAt (nodeAt d A A.length) B B.length := by
  induction A generalizing d with
  | nil => rfl
  | cons p A ih =>
    simp only [List.cons_append, List.length_cons, List.length_append]
    rw [nodeAt_cons_succ]
    have := ih (d := p.2)
    simp only [List.length_append] at this
    rw [this, nodeAt_cons_succ]

theorem chain_append {d : List Nat} {A B : List (Nat × List Nat)}
    (hA : ChainSteps d A) (hB : ChainSteps (nodeAt d A A.length) B) :
    ChainSteps d (A ++ B) := by
  induction A generalizing d with
  | nil => exact hB
  | cons p A ih =>
    obtain ⟨hstep, hrest⟩ := hA
    refine ⟨hstep, ih hrest ?_⟩
    have : nodeAt d (p :: A) (A.length + 1) = nodeAt p.2 A A.length :=
      nodeAt_cons_succ
    rw [← this]
    exact hB

theorem total_append {A B : List (Nat × List Nat)} :
    total (A ++ B) = total A + total B := by
  simp [total]

theorem total_take_add_drop {L : List (Nat × List Nat)} {n : Nat} :
    total (L.take n) + total (L.drop n) = total L := by
  have h := total_append (A := L.take n) (B := L.drop n)
  rw [List.take_append_drop] at h
  omega

theorem total_take_mono {L : List (Nat × List Nat)} {i j : Nat}
    (h : i ≤ j) : total (L.take i) ≤ total (L.take j) := by
  have h1 : (L.take j).take i = L.take i := by
    rw [List.take_take, Nat.min_eq_left h]
  have h2 := total_take_add_drop (L := L.take j) (n := i)
  rw [h1] at h2
  omega

/-- Splicing out the part of a chain between two equal arrays keeps it a
legal chain to the same end, at no greater cost, strictly shorter. -/
theorem chain_splice {d0 : List Nat} {L : List (Nat × List Nat)}
    (hch : ChainSteps d0 L) {i j : Nat} (hij : i < j) (hj : j ≤ L.length)
    (heq : nodeAt d0 L i = nodeAt d0 L j) :
    ChainSteps d0 (L.take i ++ L.drop j) ∧
      nodeAt d0 (L.take i ++ L.drop j) (L.take i ++ L.drop j).length
        = nodeAt d0 L L.length ∧
      total (L.take i ++ L.drop j) ≤ total L ∧
      (L.take i ++ L.drop j).length < L.length := by
  have hi : i ≤ L.length := by omega
  have hA : ChainSteps d0 (L.take i) := chain_take hch
  have hAlen : (L.take i).length = i := by
    rw [List.length_take]
    omega
  have hAend : nodeAt d0 (L.take i) (L.take i).length = nodeAt d0 L i := by
    rw [hAlen]
    exact nodeAt_take le_rfl
  have hB : ChainSteps (nodeAt d0 L j) (L.drop j) := chain_drop hch
  refine ⟨?_, ?_, ?_, ?_⟩
  · apply chain_append hA
    rw [hAend, heq]
    exact hB
  · rw [nodeAt_append_end, hAend, heq]
    exact nodeAt_drop_end hj
  · rw [total_append]
    have h1 := total_take_mono (L := L) (Nat.le_of_lt hij)
    have h2 := total_take_add_drop (L := L) (n := j)
    omega
  · rw [List.length_append, hAlen, List.length_drop]
    omega

/-- Every chain can be compressed to one with pairwise-distinct arrays,
reaching the same end at no greater cost. -/
theorem chain_compress {d0 : List Nat} :
    ∀ n (L : List (Nat × List Nat)), L.length ≤ n → ChainSteps d0 L →
      ∃ L2, ChainSteps d0 L2 ∧
        nodeAt d0 L2 L2.length = nodeAt d0 L L.length ∧
        total L2 ≤ total L ∧ (d0 :: L2.map Prod.snd).Nodup := by
  intro n
  induction n with
  | zero =>
    intro L hlen hch
    have hz : L = [] := by
      rw [← List.length_eq_zero]
      omega
    subst hz
    exact ⟨[], trivial, rfl, le_rfl, List.nodup_singleton d0⟩
  | succ n ih =>
    intro L hlen hch
    by_cases hnd : (d0 :: L.map Prod.snd).Nodup
    · exact ⟨L, hch, rfl, le_rfl, hnd⟩
    · rw [List.nodup_iff_injective_get] at hnd
      rw [Function.not_injective_iff] at hnd
      obtain ⟨a, b, hab, hne⟩ := hnd
      -- two distinct node positions with equal arrays; order them
      have hlen2 : (d0 :: L.map Prod.snd).length = L.length + 1 := by simp
      have hget : ∀ k : Fin (d0 :: L.map Prod.snd).length,
          (d0 :: L.map Prod.snd).get k = nodeAt d0 L k.val := by
        intro k
        unfold nodeAt
        rw [List.getD_eq_getElem _ _ (by omega)]
        simp
      rcases Nat.lt_or_ge a.val b.val with hlt | hge
      · have heq : nodeAt d0 L a.val = nodeAt d0 L b.val := by
          rw [← hget a, ← hget b, hab]
        obtain ⟨h1, h2, h3, h4⟩ := chain_splice hch hlt
          (by have := b.isLt; omega) heq
        obtain ⟨L2, hc2, he2, ht2, hn2⟩ := ih _ (by omega) h1
        exact ⟨L2, hc2, by rw [he2, h2], by omega, hn2⟩
      · have hlt : b.val < a.val := by
          rcases Nat.lt_or_ge b.val a.val with h | h
          · exact h
          · exact absurd (Fin.ext (by omega)) hne
        have heq : nodeAt d0 L b.val = nodeAt d0 L a.val := by
          rw [← hget a, ← hget b, hab]
        obtain ⟨h1, h2, h3, h4⟩ := chain_splice hch hlt
          (by have := a.isLt; omega) heq
        obtain ⟨L2, hc2, he2, ht2, hn2⟩ := ih _ (by omega) h1
        exact ⟨L2, hc2, by rw [he2, h2], by omega, hn2⟩

theorem putv_snd_le (i v a : Nat) : (putv i v a).2 ≤ 1 := by
  unfold putv
  split_ifs <;> simp

/-- Any single move from a valid state costs at most 4000. -/
theorem stepR_cost_le {d d2 : List Nat} {c : Nat} (h : StepR d c d2)
    (hd : Valid d) : c ≤ 4000 := by
  obtain ⟨s, t, w, hact, hlink, hacc, hd2, hc⟩ := h
  obtain ⟨hs15, ht15, hts, hw1, hw2⟩ := links_mem hlink
  have ha4 : get s d ≤ 4 :=
    getv_le (valid_getD_le hd).1 fun hlt => (valid_getD_le hd).2 hlt
  have hpow : 10 ^ (get s d - 1) ≤ 1000 := by
    calc 10 ^ (get s d - 1) ≤ 10 ^ 3 :=
          Nat.pow_le_pow_right (by omega) (by omega)
      _ = 1000 := by norm_num
  have hx1 := putv_snd_le s (d.getD s 0) 0
  have hx2 := putv_snd_le t (d.getD t 0) (get s d)
  subst hc
  rw [moveCost_eq hts]
  calc 10 ^ (get s d - 1) *
        (w + (putv s (d.getD s 0) 0).2 + (putv t (d.getD t 0) (get s d)).2)
      ≤ 1000 * 4 := Nat.mul_le_mul hpow (by omega)
    _ = 4000 := by norm_num

theorem chain_total_le {d : List Nat} {L : List (Nat × List Nat)}
    (hch : ChainSteps d L) (hd : Valid d) : total L ≤ 4000 * L.length := by
  induction L generalizing d with
  | nil => simp [total]
  | cons p L ih =>
    obtain ⟨c, d2⟩ := p
    obtain ⟨hstep, hrest⟩ := hch
    have h1 := stepR_cost_le hstep hd
    have h2 := ih hrest (stepR_valid hstep hd)
    unfold total at h2 ⊢
    simp only [List.map_cons, List.sum_cons, List.length_cons]
    have : 4000 * (L.length + 1) = 4000 * L.length + 4000 := by ring
    omega

theorem chain_nodes_valid {d : List Nat} {L : List (Nat × List Nat)}
    (hch : ChainSteps d L) (hd : Valid d) : ∀ p ∈ L, Valid p.2 := by
  induction L generalizing d with
  | nil => intro p hp; exact absurd hp (List.not_mem_nil p)
  | cons q L ih =>
    obtain ⟨c, d2⟩ := q
    obtain ⟨hstep, hrest⟩ := hch
    intro p hp
    rcases List.mem_cons.mp hp with hp | hp
    · rw [hp]
      exact stepR_valid hstep hd
    · exact ih hrest (stepR_valid hstep hd) p hp

/-- The cost of any legal move sequence to any state can be realized
below the sentinel `2 ** 63` (the state space is small and moves are
cheap). -/
theorem reach_below_sentinel {d0 : List Nat} {cg : Nat} {g : List Nat}
    (hval : Valid d0) (hr : Reach d0 cg g) :
    ∃ cg2, cg2 ≤ cg ∧ Reach d0 cg2 g ∧ cg2 < SENT := by
  obtain ⟨L, hch, htot, hend⟩ := reach_to_chain hr
  obtain ⟨L2, hch2, hend2, hcost2, hnd2⟩ := chain_compress L.length L le_rfl hch
  obtain ⟨cs, hcs, hreach2⟩ := chain_suffix_reach hch2 0 (Nat.zero_le _)
  rw [pcost_zero] at hcs
  have hreach3 : Reach d0 (total L2) g := by
    have : nodeAt d0 L2 0 = d0 := nodeAt_zero
    rw [this] at hreach2
    rw [hend2, hend] at hreach2
    rw [← hcs]
    simpa using hreach2
  have hlenb : L2.length + 1 ≤ NVAL := by
    have := nodup_valid_length hnd2 (by
      intro x hx
      rcases List.mem_cons.mp hx with hx | hx
      · rw [hx]; exact hval
      · rw [List.mem_map] at hx
        obtain ⟨p, hp, hpx⟩ := hx
        rw [← hpx]
        exact chain_nodes_valid hch2 hval p hp)
    simpa using this
  have hcb := chain_total_le hch2 hval
  have hnv : NVAL = 19073486328125 := by norm_num [NVAL]
  have hsv : SENT = 9223372036854775808 := by norm_num [SENT]
  exact ⟨total L2, by omega, hreach3, by omega⟩

/-! ### Unit counts along runs, and an unsolvable input -/

/-- Unit counts of each type are conserved by whole move sequences. -/
theorem reach_countF {d g : List Nat} {c : Nat} (hr : Reach d c g)
    (hd : Valid d) {b : Nat} (hb1 : 1 ≤ b) (hb4 : b ≤ 4) :
    countF b g = countF b d := by
  induction hr with
  | refl d => rfl
  | step h1 h2 ih =>
    rw [ih (stepR_valid h1 hd)]
    exact stepR_count h1 hd hb1 hb4

set_option maxRecDepth 2000 in
theorem countv_goal_bound :
    ∀ i < 15, ∀ v < 25, is_activev i v = false →
      countv i v 1 ≤ (if i = 11 then 2 else 0) := by
  decide

theorem goal_count1_le {g : List Nat} (hv : Valid g)
    (hg : isGoal g = true) : countF 1 g ≤ 2 := by
  unfold countF
  calc (∑ i ∈ Finset.range 15, countv i (g.getD i 0) 1)
      ≤ ∑ i ∈ Finset.range 15, (if i = 11 then 2 else 0) := by
        apply Finset.sum_le_sum
        intro i hi
        rw [Finset.mem_range] at hi
        exact countv_goal_bound i hi _
          (by have := (valid_getD_le hv (i := i)).1; omega)
          (isGoal_inactive hg hi)
    _ = 2 := by decide

/-- A board with three type-1 units in the hallway and all destinations
empty: parseable, but no goal configuration is reachable (the type-1
destination can absorb only two of them). -/
def dU : List Nat := [0, 1, 0, 1, 0, 1, 0, 0, 0, 0, 0, 0, 0, 0, 0]

/-- A board with a single type-1 unit one hallway cell away from its
destination. -/
def dA1 : List Nat := [0, 1, 0, 0, 0, 0, 0, 0, 0, 0, 0, 0, 0, 0, 0]

theorem dU_unsolvable : ∀ cg g, Reach dU cg g → isGoal g = false := by
  intro cg g hr
  by_contra hgoal
  rw [Bool.not_eq_false] at hgoal
  have hvU : Valid dU := by decide
  have hcount : countF 1 g = countF 1 dU := reach_countF hr hvU le_rfl (by omega)
  have hdU3 : countF 1 dU = 3 := by decide
  have hle2 := goal_count1_le (reach_valid hr hvU) hgoal
  omega

/-! ### The claim theorems -/

/-- C1: for every well-formed initial board state from which some legal
move sequence reaches a state with empty active set, the value the search
reports equals the true minimum total cost over all legal move sequences
reaching such a state. -/
theorem C1_theorem (d0 : List Nat) (h : Valid d0)
    (hsol : ∃ cg g, Reach d0 cg g ∧ isGoal g = true) :
    searchOut d0
      = some (sInf {cg | ∃ g, Reach d0 cg g ∧ isGoal g = true}) := by
  have hne : {cg | ∃ g, Reach d0 cg g ∧ isGoal g = true}.Nonempty := by
    obtain ⟨cg, g, hr, hg⟩ := hsol
    exact ⟨cg, g, hr, hg⟩
  obtain ⟨g, hr, hg⟩ := Nat.sInf_mem hne
  obtain ⟨r, hrun⟩ := searchOut_total h
  have hub : r ≤ sInf {cg | ∃ g, Reach d0 cg g ∧ isGoal g = true} :=
    loop_le_reach h hrun hr hg
  rcases loopF_sound (inv_init h) hrun with hs | ⟨g2, hr2, hg2⟩
  · exfalso
    obtain ⟨cg2, hle, hr3, hlt⟩ := reach_below_sentinel h hr
    have hlow : sInf {cg | ∃ g, Reach d0 cg g ∧ isGoal g = true} ≤ cg2 :=
      Nat.sInf_le ⟨g, hr3, hg⟩
    rw [SENT] at hs hlt
    omega
  · have hlow : sInf {cg | ∃ g, Reach d0 cg g ∧ isGoal g = true} ≤ r :=
      Nat.sInf_le ⟨g2, hr2, hg2⟩
    rw [hrun]
    congr 1
    omega

/-- C1 witness: the empty board is well-formed and already a goal; the
theorem applies and the search reports the optimum. -/
theorem C1_witness :
    Valid dEmpty ∧
      searchOut dEmpty
        = some (sInf {cg | ∃ g, Reach dEmpty cg g ∧ isGoal g = true}) :=
  ⟨by decide, C1_theorem dEmpty (by decide)
    ⟨0, dEmpty, Reach.refl dEmpty, by decide⟩⟩

/-- C3 (amended): when the frontier is exhausted without any goal state
ever being reachable, the program prints the numeric sentinel `2 ** 63`
it started from — there is no distinguishable "no solution" outcome. -/
theorem C3_amended (d : List Nat) (h : Valid d)
    (hns : ∀ cg g, Reach d cg g → isGoal g = false) :
    searchOut d = some SENT := by
  obtain ⟨r, hrun⟩ := searchOut_total h
  rcases loopF_sound (inv_init h) hrun with hs | ⟨g2, hr2, hg2⟩
  · rw [hrun, hs]
  · rw [hns r g2 hr2] at hg2
    exact absurd hg2 (by simp)

/-- C3 witness: the three-A board is well-formed, unsolvable, and the
program's output on it is the sentinel. -/
theorem C3_amended_witness : Valid dU ∧ searchOut dU = some SENT :=
  ⟨by decide, C3_amended dU (by decide) dU_unsolvable⟩

set_option maxRecDepth 10000 in
/-- C3 counterexample: on the unsolvable three-A board the program's
final output is the bare number `2 ** 63` — a numeric sentinel, not an
explicit failure outcome (the printed value is indistinguishable from a
computed cost). -/
theorem C3_counterexample : searchOut dU = some 9223372036854775808 := by
  rfl

/-- C4: for every configuration the search passes through on a
well-formed input and every entry of its frontier (the initial state and
every pushed successor), the stored active set is exactly the set of
locations whose `is_active` holds on that entry's array. -/
theorem C4_theorem (d0 : List Nat) (h : Valid d0) (c : Config)
    (hr : Reaches (initConfig d0) c) (e : Entry) (he : e ∈ c.queue) :
    ∀ i, i ∈ e.act ↔ (i < 15 ∧ is_active i e.data = true) :=
  fun i => ((reaches_inv (inv_init h) hr).2.1 e he).2.2.2.2 i

/-- C4 witness: the initial entry of the single-A board, checked at
location 1. -/
theorem C4_witness :
    1 ∈ (initEntry dA1).act ↔ (1 < 15 ∧ is_active 1 dA1 = true) :=
  C4_theorem dA1 (by decide) (initConfig dA1) Relation.ReflTransGen.refl
    (initEntry dA1) (List.mem_singleton.mpr rfl) 1

/-- C5: in every configuration the search passes through on a well-formed
input, one iteration (i) never changes an existing visited-table binding
(so each distinct array is written at most once and its recorded cost
never increases), (ii) keeps the table's keys duplicate-free, and (iii)
discards without expansion any popped entry whose array already has a
recorded cost — which is then at most the entry's accumulated cost. -/
theorem C5_theorem (d0 : List Nat) (h : Valid d0) (c : Config)
    (hr : Reaches (initConfig d0) c) (e : Entry) (rest : List Entry)
    (hq : c.queue = e :: rest) :
    (∀ d v, lookupA d c.states = some v → lookupA d (stepC c).states = some v) ∧
      ((stepC c).states.map Prod.fst).Nodup ∧
      (∀ p, lookupA e.data c.states = some p →
        p ≤ e.en ∧ stepC c = ⟨rest, c.states, c.result⟩) := by
  have hInv := reaches_inv (inv_init h) hr
  have hnext := stepC_inv hInv
  refine ⟨?_, hnext.2.2.2.2.1, ?_⟩
  · intro d v hl
    by_cases hle : c.result ≤ e.est
    · rw [stepC_discard1 hq hle]
      exact hl
    · rcases hlk : lookupA e.data c.states with _ | p
      · rw [stepC_expand_none hq hle hlk, expandStep_states, lookupA_cons]
        have hne : d ≠ e.data := by
          intro hcon
          rw [hcon, hlk] at hl
          exact Option.noConfusion hl
        rw [if_neg hne]
        exact hl
      · have hple := inv_lookup_le hInv hq hlk
        rw [stepC_discard2 hq hle hlk hple]
        exact hl
  · intro p hp
    have hple := inv_lookup_le hInv hq hp
    refine ⟨hple, ?_⟩
    by_cases hle : c.result ≤ e.est
    · exact stepC_discard1 hq hle
    · exact stepC_discard2 hq hle hp hple

/-- C5 witness: after the first expansion on the single-A board, the
initial array's recorded cost 0 survives the next iteration unchanged. -/
theorem C5_witness :
    lookupA dA1 (stepC (stepC (initConfig dA1))).states = some 0 :=
  (C5_theorem dA1 (by decide) (stepC (initConfig dA1))
    (Relation.ReflTransGen.single ⟨by decide, rfl⟩)
    ⟨3, 3, [0, 0, 0, 0, 0, 0, 0, 0, 0, 0, 0, 1, 0, 0, 0], []⟩
    [⟨4, 1, [1, 0, 0, 0, 0, 0, 0, 0, 0, 0, 0, 0, 0, 0, 0], [0]⟩,
     ⟨4, 2, [0, 0, 0, 1, 0, 0, 0, 0, 0, 0, 0, 0, 0, 0, 0], [3]⟩]
    (by decide)).1 dA1 0 (by decide)

/-- C6 (amended): when an entry is popped whose estimate is at least the
best known finished-goal cost, that iteration is a pure discard, and the
final reported cost equals the current best known one — but the loop does
not exit: it keeps popping (and discarding) until the frontier is empty. -/
theorem C6_amended (c : Config) (e : Entry) (rest : List Entry)
    (hq : c.queue = e :: rest)
    (hpw : c.queue.Pairwise fun a b => a.est ≤ b.est)
    (hle : c.result ≤ e.est) :
    stepC c = ⟨rest, c.states, c.result⟩ ∧
      ∀ f r, loopF f c = some r → r = c.result := by
  refine ⟨stepC_discard1 hq hle, ?_⟩
  intro f r hrun
  apply loopF_drain hpw ?_ hrun
  intro x hx
  rw [hq] at hx
  rcases List.mem_cons.mp hx with hx | hx
  · rw [hx]
    exact hle
  · rw [hq] at hpw
    rw [List.pairwise_cons] at hpw
    exact le_trans hle (hpw.1 x hx)

/-- C6 witness: a one-entry frontier whose estimate 5 is at least the
best known cost 3; the pop discards it and the loop reports 3. -/
theorem C6_amended_witness :
    stepC ⟨[⟨5, 0, dEmpty, []⟩], [], 3⟩
        = ⟨[], ([] : List (List Nat × Nat)), 3⟩ ∧
      (3 : Nat) = 3 :=
  ⟨(C6_amended ⟨[⟨5, 0, dEmpty, []⟩], [], 3⟩ ⟨5, 0, dEmpty, []⟩ [] rfl
      (List.pairwise_singleton _ _) (by decide)).1,
    (C6_amended ⟨[⟨5, 0, dEmpty, []⟩], [], 3⟩ ⟨5, 0, dEmpty, []⟩ [] rfl
      (List.pairwise_singleton _ _) (by decide)).2 1 3 (by rfl)⟩

/-- C6 counterexample: on the single-A board, the third pop has estimate
4 with best known cost 3, yet the search does not terminate at that
point: one more iteration is still performed (with fuel for exactly one
more iteration the run is unfinished, returning `none`), and only after
draining the remaining entry does it report 3. -/
theorem C6_counterexample :
    (stepC (stepC (initConfig dA1))).queue =
        [⟨4, 1, [1, 0, 0, 0, 0, 0, 0, 0, 0, 0, 0, 0, 0, 0, 0], [0]⟩,
         ⟨4, 2, [0, 0, 0, 1, 0, 0, 0, 0, 0, 0, 0, 0, 0, 0, 0], [3]⟩] ∧
      (stepC (stepC (initConfig dA1))).result = 3 ∧
      (3 : Nat) ≤ 4 ∧
      loopF 1 (stepC (stepC (initConfig dA1))) = none ∧
      loopF 2 (stepC (stepC (initConfig dA1))) = some 3 := by
  refine ⟨by decide, by decide, by decide, by decide, by decide⟩

/-- C7: on every state reachable from a well-formed initial state, the
heuristic (the summed per-slot `DISTANCES` lower bounds) never exceeds
the true minimum remaining cost to any goal state. -/
theorem C7_theorem (d0 d : List Nat) (c0 : Nat) (h : Valid d0)
    (hreach : Reach d0 c0 d)
    (hsol : ∃ cg g, Reach d cg g ∧ isGoal g = true) :
    get_estimation d
      ≤ sInf {cg | ∃ g, Reach d cg g ∧ isGoal g = true} := by
  have hvd : Valid d := reach_valid hreach h
  have hne : {cg | ∃ g, Reach d cg g ∧ isGoal g = true}.Nonempty := by
    obtain ⟨cg, g, hr, hg⟩ := hsol
    exact ⟨cg, g, hr, hg⟩
  obtain ⟨g, hr, hg⟩ := Nat.sInf_mem hne
  exact reach_goal_esti hr hvd hg

/-- C7 witness: the empty board, which is reachable from itself and
already a goal. -/
theorem C7_witness :
    get_estimation dEmpty
      ≤ sInf {cg | ∃ g, Reach dEmpty cg g ∧ isGoal g = true} :=
  C7_theorem dEmpty dEmpty 0 (by decide) (Reach.refl dEmpty)
    ⟨0, dEmpty, Reach.refl dEmpty, by decide⟩

/-- C9: every state reachable from a well-formed initial state keeps each
Transit slot in `0..4` and each Destination slot of the form `5*x + y`
with `x, y ∈ 0..4` (equivalently `0..24`), and consequently every
`DISTANCES[i][j]` lookup performed by `get_estimation` is in bounds. -/
theorem C9_theorem (d0 : List Nat) (h : Valid d0) (c : Nat)
    (d : List Nat) (hr : Reach d0 c d) :
    (∀ i < 11, d.getD i 0 ≤ 4) ∧
      (∀ i < 15, 11 ≤ i → d.getD i 0 / 5 ≤ 4 ∧ d.getD i 0 % 5 ≤ 4 ∧
        d.getD i 0 = 5 * (d.getD i 0 / 5) + d.getD i 0 % 5) ∧
      (∀ i < 11, i < DISTANCES.length ∧
        d.getD i 0 < (DISTANCES.getD i []).length) ∧
      (∀ i < 4, i + 11 < DISTANCES.length ∧ i + 15 < DISTANCES.length ∧
        d.getD (i + 11) 0 / 5 < (DISTANCES.getD (i + 11) []).length ∧
        d.getD (i + 11) 0 % 5 < (DISTANCES.getD (i + 15) []).length) := by
  have hv : Valid d := reach_valid hr h
  have hrows : ∀ i < 19, (DISTANCES.getD i []).length = 5 := by decide
  have hdlen : DISTANCES.length = 19 := by decide
  have hb1 := hv.2.1
  have hb2 := hv.2.2
  refine ⟨hb1, ?_, ?_, ?_⟩
  · intro i hi15 hi11
    have := hb2 i hi15 hi11
    omega
  · intro i hi
    have := hb1 i hi
    rw [hrows i (by omega)]
    omega
  · intro i hi
    have h1 := hb2 (i + 11) (by omega) (by omega)
    rw [hrows (i + 11) (by omega), hrows (i + 15) (by omega)]
    omega

/-- C9 witness: the single-A board, reachable from itself. -/
theorem C9_witness : dA1.getD 1 0 ≤ 4 :=
  (C9_theorem dA1 (by decide) 0 dA1 (Reach.refl dA1)).1 1 (by decide)

/-- C10: on every well-formed input — also one whose goal is unreachable —
the search loop terminates: with the reference fuel the frontier is
drained and a result is returned (no crash, no infinite loop). -/
theorem C10_theorem (d : List Nat) (h : Valid d) :
    ∃ r, searchOut d = some r :=
  searchOut_total h

/-- C10 witness: the unsolvable three-A board still terminates. -/
theorem C10_witness : ∃ r, searchOut dU = some r :=
  C10_theorem dU (by decide)

end Amphipod
